import Mathlib

/-!
# A set-associative cache simulator (`main.c`): shallow embedding and properties

The C program simulates a cache in front of a flat byte-addressable memory.
This file embeds its functions as Lean definitions and states properties of them.

Conventions of the embedding

* `unsigned int` addresses are natural numbers; where the source relies on 32-bit
  wrap-around the reduction `% 2 ^ 32` is written out.
* `int` and `char` values are integers. `char` is the signed 8-bit type of the
  platform the program was written for; storing an `int` into a `char` keeps the
  low eight bits (`toChar`).
* On signed operands `%` and `/` truncate toward zero (`Int.tmod`, `Int.tdiv`),
  `>>` is the arithmetic shift (floor division by two) and `<<` doubles.
* A `for` loop with a fixed trip count is a structural recursion on the number of
  iterations still to run, carrying the loop variable and the mutated state.
* Array accesses outside the allocated object, the use of the unassigned block
  pointer and the two calls of `exit` are the ways the program can stop early;
  they are the constructors of `Fault`. Memory is indexed within `MEMORY_SIZE`, the
  size of its allocation; the other arrays within their length.
* `printf` output is not part of the state and is left out.
-/

namespace CacheSim

/-! ## Configuration constants (`#define`s) -/

def WORD_SIZE_BITS : Nat := 32
def BYTE_SIZE : Nat := 8
def WORD_SIZE_BYTES : Nat := WORD_SIZE_BITS / BYTE_SIZE
def CACHE_SIZE : Nat := 1024
def CACHE_BLOCK_SIZE : Nat := 64
def MEMORY_SIZE : Nat := 65536
def ASSOCIATIVITY : Nat := 2
def MEMORY_CAP : Nat := 500000
def WORD_HIT : Int := 50
def WORD_MISS : Int := -50

/-- Ways in which an access stops before returning. -/
inductive Fault where
  /-- The call `exit(INVALID_MEMORY_ADDRESS)`. -/
  | invalidMemoryAddress
  /-- An index outside the bounds of the indexed array. -/
  | outOfBounds
  /-- The statement `block->tag = ...` reached with `block` never assigned. -/
  | unassignedBlock
  /-- The call `exit(CACHE_TOO_LARGE_ERROR)`. -/
  | cacheTooLarge
  deriving DecidableEq, Repr

inductive WriteStyle where
  | WRITE_THROUGH
  | WRITE_BACK
  deriving DecidableEq, Repr

/-! ## Data structures -/

structure Block where
  set : Int
  tag : Int
  clean : Int
  valid : Int
  byte_array : List Int
  deriving DecidableEq, Repr

structure Cache where
  size : Nat
  block_size : Nat
  numBlocks : Nat
  blocks : List Block
  associativity : Nat
  write_style : WriteStyle
  tag_length : Nat
  index_length : Nat
  block_offset_length : Nat
  deriving DecidableEq, Repr

structure Word where
  bytes : List Int
  deriving DecidableEq, Repr

structure Queue where
  maxSize : Nat
  array : List Int
  deriving DecidableEq, Repr

structure LRU where
  numQueues : Nat
  queues : List Queue
  deriving DecidableEq, Repr

/-! ## Construction -/

/-- The largest `j ≤ k` with `j * j ≤ x`. With `k = x` this is the square root of `x`
truncated toward zero, the value of `(int) pow(x, 0.5)` for a non-negative integer `x`
(`pow(64, 0.5)` is `8.0`, and `pow(8, 0.5)` is `2.82…`, truncated to `2`). -/
def truncSqrtFrom (x : Nat) : Nat → Nat
  | 0 => 0
  | k + 1 => if (k + 1) * (k + 1) ≤ x then k + 1 else truncSqrtFrom x k

/-- The expression `(int) pow(x, 0.5)`. -/
def powHalf (x : Nat) : Nat := truncSqrtFrom x x

def newBlock : Block :=
  { set := -1, tag := -1, clean := 1, valid := 1,
    byte_array := List.replicate CACHE_BLOCK_SIZE 0 }

def newCache : Cache :=
  let numBlocks := CACHE_SIZE / CACHE_BLOCK_SIZE
  let block_offset_length := powHalf CACHE_BLOCK_SIZE
  let index_length := powHalf (numBlocks / ASSOCIATIVITY)
  { size := CACHE_SIZE
    block_size := CACHE_BLOCK_SIZE
    numBlocks := numBlocks
    blocks := List.replicate numBlocks newBlock
    associativity := ASSOCIATIVITY
    write_style := WriteStyle.WRITE_THROUGH
    tag_length := WORD_SIZE_BITS - index_length - block_offset_length
    index_length := index_length
    block_offset_length := block_offset_length }

def newWord : Word := { bytes := List.replicate WORD_SIZE_BYTES 0 }

/-! ## Address decomposition -/

/-- The loop of `extractInt`: `n` iterations remain, `i` is the loop variable. -/
def extractIntLoop : Nat → Nat → Nat → Nat → Nat
  | 0, _, value, _ => value
  | n + 1, i, value, address =>
      extractIntLoop n (i + 1) (value + (address % 2) * 2 ^ i) (address / 2)

/-- The function `extractInt(address, rightOffset, length)`. The accumulator is an `int`
in the source; it stays below `2 ^ 31` whenever `length ≤ 31`. -/
def extractInt (address rightOffset length : Nat) : Nat :=
  extractIntLoop length 0 0 (address / 2 ^ rightOffset)

def calculateTag (cache : Cache) (address : Nat) : Nat :=
  extractInt address (cache.index_length + cache.block_offset_length) cache.tag_length

def calculateIndex (cache : Cache) (address : Nat) : Nat :=
  extractInt address cache.block_offset_length cache.index_length

def calculateBlockOffset (cache : Cache) (address : Nat) : Nat :=
  extractInt address 0 cache.block_offset_length

/-- The function `validate_address`: returns normally or exits. -/
def validate_address (address : Nat) : Except Fault Unit :=
  if address % WORD_SIZE_BYTES ≠ 0 ∨ address > MEMORY_SIZE then
    Except.error Fault.invalidMemoryAddress
  else
    Except.ok ()

/-! ## Byte order -/

/-- Conversion of an `int` to the signed 8-bit `char`: the low eight bits are kept. -/
def toChar (v : Int) : Int := (v + 128) % 256 - 128

/-- The inner loop of `int_to_endian` that reverses the collected bits: `n` iterations
remain; returns the final `correct_byte`. -/
def reverseBitsLoop : Nat → Int → Int → Int
  | 0, correct_byte, _ => correct_byte
  | n + 1, correct_byte, byte =>
      reverseBitsLoop n (correct_byte * 2 + Int.tmod byte 2) (byte / 2)

/-- The outer loop of `int_to_endian`: `n` iterations remain, `i` is the loop variable. -/
def int_to_endian_loop : Nat → Nat → Int → Int → Word → Word
  | 0, _, _, _, word => word
  | n + 1, i, integer, byte, word =>
      let byte := byte + Int.tmod integer 2
      if i % BYTE_SIZE = 7 then
        let correct_byte := reverseBitsLoop (BYTE_SIZE - 1) (Int.tmod byte 2) (byte / 2)
        int_to_endian_loop n (i + 1) (Int.tdiv integer 2) 0
          { bytes := word.bytes.set (i / BYTE_SIZE) (toChar correct_byte) }
      else
        int_to_endian_loop n (i + 1) (Int.tdiv integer 2) (byte * 2) word

/-- The function `int_to_endian(integer, word)`; the updated word is returned. -/
def int_to_endian (integer : Int) (word : Word) : Word :=
  int_to_endian_loop WORD_SIZE_BITS 0 integer 0 word

/-- The largest value of an `int`. -/
def INT_MAX : Int := 2 ^ 31 - 1

/-- The inner loop of `endian_to_int` over the bits of one byte. The sum is formed in
`double` and converted back to `int`; there is no result when it leaves the `int` range. -/
def endianBitsLoop : Nat → Nat → Nat → Int → Int → Option Int
  | 0, _, _, _, integer => some integer
  | n + 1, j, i, byte, integer =>
      let sum := integer + (Int.natAbs (Int.tmod byte 2) : Int) * 2 ^ (j + i * BYTE_SIZE)
      if sum ≤ INT_MAX then endianBitsLoop n (j + 1) i (toChar (byte / 2)) sum else none

/-- The outer loop of `endian_to_int` over the bytes of the word. -/
def endianBytesLoop : Nat → Nat → Word → Int → Option Int
  | 0, _, _, integer => some integer
  | n + 1, i, word, integer =>
      match endianBitsLoop BYTE_SIZE 0 i (word.bytes.getD i 0) integer with
      | none => none
      | some integer => endianBytesLoop n (i + 1) word integer

/-- The function `endian_to_int(word)`. -/
def endian_to_int (word : Word) : Option Int :=
  endianBytesLoop WORD_SIZE_BYTES 0 word 0

/-! ## Memory -/

/-- The loop `for j < WORD_SIZE_BYTES: mem[i+j] = word.bytes[j]`. -/
def storeWordLoop : Nat → Nat → Nat → Word → Array Int → Array Int
  | 0, _, _, _, mem => mem
  | n + 1, j, i, word, mem =>
      storeWordLoop n (j + 1) i word (mem.setD (i + j) (word.bytes.getD j 0))

/-- The loop `for (i = 0; i < MEMORY_SIZE; i += WORD_SIZE_BYTES)` of `initialize_memory`,
with `fuel` bounding the number of iterations. -/
def initialize_memory_loop : Nat → Nat → Array Int → Array Int
  | 0, _, mem => mem
  | fuel + 1, i, mem =>
      if i < MEMORY_SIZE then
        initialize_memory_loop fuel (i + WORD_SIZE_BYTES)
          (storeWordLoop WORD_SIZE_BYTES 0 i (int_to_endian i newWord) mem)
      else mem

/-- The function `initialize_memory()`. The `MEMORY_SIZE` bytes of the fresh allocation
are taken to be zero; every one of them is overwritten by the loop. -/
def initialize_memory : Array Int :=
  initialize_memory_loop MEMORY_SIZE 0 (mkArray MEMORY_SIZE 0)

/-! ## The LRU queues -/

def newQueue (maxSize : Nat) : Queue :=
  { maxSize := maxSize, array := List.replicate maxSize (-1) }

/-- The search loop of `addTagQueue`: the first index holding `tag`, or `0`. -/
def findTagLoop : Nat → Nat → List Int → Int → Nat
  | 0, _, _, _ => 0
  | n + 1, i, array, tag =>
      if array.getD i 0 = tag then i else findTagLoop n (i + 1) array tag

/-- The shifting loop of `addTagQueue`: `array[i-1] = array[i]`. -/
def shiftLoop : Nat → Nat → List Int → List Int
  | 0, _, array => array
  | n + 1, i, array => shiftLoop n (i + 1) (array.set (i - 1) (array.getD i 0))

/-- The function `addTagQueue(queue, tag)`: the returned tag and the updated queue. -/
def addTagQueue (queue : Queue) (tag : Int) : Int × Queue :=
  let oldestTag := queue.array.getD 0 0
  let itemIndex := findTagLoop queue.maxSize 0 queue.array tag
  let array := shiftLoop (queue.maxSize - (itemIndex + 1)) (itemIndex + 1) queue.array
  let array := array.set (queue.maxSize - 1) tag
  let queue := { queue with array := array }
  if oldestTag = -1 then (-1, queue)
  else (if oldestTag ≠ array.getD 0 0 then oldestTag else tag, queue)

/-- The loop of `newLRU` allocating the queues. -/
def newLRU (numQueues : Nat) : LRU :=
  let queueSize := CACHE_BLOCK_SIZE * ASSOCIATIVITY
  { numQueues := numQueues, queues := List.replicate numQueues (newQueue queueSize) }

/-- The element `xs[k]` for an `int` index `k`. -/
def atIndex {α : Type} (xs : List α) (k : Int) : Option α :=
  if 0 ≤ k then xs[k.toNat]? else none

/-- The function `getEvictedTagLRU(lru, set, tag)` on the global `lru`. -/
def getEvictedTagLRU (lru : LRU) (set : Int) (tag : Int) : Except Fault (Int × LRU) :=
  match atIndex lru.queues set with
  | none => Except.error Fault.outOfBounds
  | some queue =>
      if set > queue.maxSize ∨ set < 0 then Except.error Fault.invalidMemoryAddress
      else
        let r := addTagQueue queue tag
        Except.ok (r.1, { lru with queues := lru.queues.set set.toNat r.2 })

/-! ## Lookup and installation -/

/-- The scan `for i < associativity` of `check_cache` over the blocks of a set. -/
def checkSetLoop : Nat → Nat → Cache → Int → Int → Except Fault Int
  | 0, _, _, _, _ => Except.ok WORD_MISS
  | n + 1, i, cache, set, tag =>
      match atIndex cache.blocks (cache.associativity * set + i) with
      | none => Except.error Fault.outOfBounds
      | some block =>
          if tag = block.tag then Except.ok WORD_HIT
          else checkSetLoop n (i + 1) cache set tag

/-- The function `check_cache(address, cache)`: the hit code and the updated global `lru`. -/
def check_cache (address : Nat) (cache : Cache) (lru : LRU) : Except Fault (Int × LRU) :=
  if cache.associativity = 1 then
    let block := address % cache.numBlocks
    let tag : Int := calculateTag cache address
    match cache.blocks[block]? with
    | none => Except.error Fault.outOfBounds
    | some b => Except.ok (if tag = b.tag then WORD_HIT else WORD_MISS, lru)
  else
    let set : Int := toChar ((address % (cache.numBlocks / cache.associativity) : Nat) : Int)
    let tag : Int := calculateTag cache address
    match getEvictedTagLRU lru set tag with
    | Except.error e => Except.error e
    | Except.ok r =>
        match checkSetLoop cache.associativity 0 cache set tag with
        | Except.error e => Except.error e
        | Except.ok hit => Except.ok (hit, r.2)

/-- The loop `block->byte_array[block_offset+i] = memory[address+i]`. -/
def fillWordLoop : Nat → Nat → Nat → Nat → Array Int → Block → Except Fault Block
  | 0, _, _, _, _, block => Except.ok block
  | n + 1, i, block_offset, address, memory, block =>
      if (address + i) % 2 ^ 32 < MEMORY_SIZE ∧ block_offset + i < block.byte_array.length then
        fillWordLoop n (i + 1) block_offset address memory
          { block with
            byte_array :=
              block.byte_array.set (block_offset + i) (memory.getD ((address + i) % 2 ^ 32) 0) }
      else Except.error Fault.outOfBounds

/-- The search for the block holding the evicted tag; `block` is the index last assigned. -/
def findEvictedLoop : Nat → Nat → Cache → Int → Option Nat → Except Fault (Option Nat)
  | 0, _, _, _, block => Except.ok block
  | n + 1, i, cache, evictedTag, block =>
      match cache.blocks[i]? with
      | none => Except.error Fault.outOfBounds
      | some b =>
          findEvictedLoop n (i + 1) cache evictedTag (if b.tag = evictedTag then some i else block)

/-- The loop over `j` testing the bytes of a block at the target offset against zero. -/
def wordIsZeroLoop : Nat → Nat → Block → Nat → Except Fault Bool
  | 0, _, _, _ => Except.ok true
  | n + 1, j, block, block_offset =>
      match block.byte_array[block_offset + j]? with
      | none => Except.error Fault.outOfBounds
      | some v => if v ≠ 0 then Except.ok false else wordIsZeroLoop n (j + 1) block block_offset

/-- The search for the first block of the set whose word at the target offset is zero. -/
def findEmptyLoop : Nat → Nat → Cache → Nat → Except Fault (Option Nat)
  | 0, _, _, _ => Except.ok none
  | n + 1, i, cache, block_offset =>
      match cache.blocks[i]? with
      | none => Except.error Fault.outOfBounds
      | some b =>
          match wordIsZeroLoop WORD_SIZE_BYTES 0 b block_offset with
          | Except.error e => Except.error e
          | Except.ok true => Except.ok (some i)
          | Except.ok false => findEmptyLoop n (i + 1) cache block_offset

/-- The statements of `pass_word_to_cache` that overwrite the chosen block. -/
def installBlock (cache : Cache) (k : Nat) (address : Nat) (memory : Array Int) :
    Except Fault Cache :=
  match cache.blocks[k]? with
  | none => Except.error Fault.outOfBounds
  | some b =>
      let b := { b with tag := (calculateTag cache address : Int), valid := 1, clean := 1 }
      match fillWordLoop WORD_SIZE_BYTES 0 (calculateBlockOffset cache address) address memory b with
      | Except.error e => Except.error e
      | Except.ok b => Except.ok { cache with blocks := cache.blocks.set k b }

/-- The function `pass_word_to_cache(address, memory, cache)`. -/
def pass_word_to_cache (address : Nat) (memory : Array Int) (cache : Cache) (lru : LRU) :
    Except Fault (Cache × LRU) :=
  if cache.associativity = 1 then
    match installBlock cache (address % cache.numBlocks) address memory with
    | Except.error e => Except.error e
    | Except.ok cache => Except.ok (cache, lru)
  else if cache.associativity > 1 then
    let destination_set := address % (cache.numBlocks / cache.associativity)
    match getEvictedTagLRU lru destination_set (calculateTag cache address) with
    | Except.error e => Except.error e
    | Except.ok r =>
        let evictedTag := r.1
        let search :=
          if evictedTag ≠ -1 then
            findEvictedLoop ASSOCIATIVITY (destination_set * ASSOCIATIVITY) cache evictedTag none
          else
            findEmptyLoop ASSOCIATIVITY (destination_set * ASSOCIATIVITY) cache
              (calculateBlockOffset cache address)
        match search with
        | Except.error e => Except.error e
        | Except.ok none => Except.error Fault.unassignedBlock
        | Except.ok (some k) =>
            match installBlock cache k address memory with
            | Except.error e => Except.error e
            | Except.ok cache => Except.ok (cache, r.2)
  else Except.ok (cache, lru)

/-! ## The controller -/

/-- The program state: the cache, the global `lru` and the memory, an array of
`MEMORY_SIZE` bytes. -/
structure State where
  cache : Cache
  lru : LRU
  memory : Array Int
  deriving DecidableEq

/-- The function `read_word(address, memory, cache)`. The returned `Word` is never
assigned in the source and is not part of the result here. -/
def read_word (address : Nat) (s : State) : Except Fault State :=
  match validate_address address with
  | Except.error e => Except.error e
  | Except.ok _ =>
      match check_cache address s.cache s.lru with
      | Except.error e => Except.error e
      | Except.ok r =>
          if r.1 = WORD_MISS then
            match pass_word_to_cache address s.memory s.cache r.2 with
            | Except.error e => Except.error e
            | Except.ok p => Except.ok { s with cache := p.1, lru := p.2 }
          else Except.ok { s with lru := r.2 }

/-- The loop of `write_word` storing the word into
`cache->blocks[address % numBlocks]` and into memory. -/
def writeWordLoop : Nat → Nat → Nat → Word → Cache → Array Int →
    Except Fault (Cache × Array Int)
  | 0, _, _, _, cache, memory => Except.ok (cache, memory)
  | n + 1, i, address, word, cache, memory =>
      let k := address % cache.numBlocks
      let off := calculateBlockOffset cache address + i
      match cache.blocks[k]? with
      | none => Except.error Fault.outOfBounds
      | some b =>
          if off < b.byte_array.length ∧ (address + i) % 2 ^ 32 < MEMORY_SIZE then
            let v := word.bytes.getD i 0
            writeWordLoop n (i + 1) address word
              { cache with
                blocks := cache.blocks.set k { b with byte_array := b.byte_array.set off v } }
              (memory.setD ((address + i) % 2 ^ 32) v)
          else Except.error Fault.outOfBounds

/-- The function `write_word(address, word, memory, cache)`. -/
def write_word (address : Nat) (word : Word) (s : State) : Except Fault State :=
  match s.cache.write_style with
  | WriteStyle.WRITE_THROUGH =>
      match check_cache address s.cache s.lru with
      | Except.error e => Except.error e
      | Except.ok r =>
          if r.1 = WORD_MISS then
            match pass_word_to_cache address s.memory s.cache r.2 with
            | Except.error e => Except.error e
            | Except.ok p =>
                match writeWordLoop WORD_SIZE_BYTES 0 address word p.1 s.memory with
                | Except.error e => Except.error e
                | Except.ok q => Except.ok { cache := q.1, lru := p.2, memory := q.2 }
          else
            match writeWordLoop WORD_SIZE_BYTES 0 address word s.cache s.memory with
            | Except.error e => Except.error e
            | Except.ok q => Except.ok { cache := q.1, lru := r.2, memory := q.2 }
  | WriteStyle.WRITE_BACK => Except.ok s

/-- The function `validate_cache_size`. -/
def validate_cache_size : Except Fault Unit :=
  if CACHE_SIZE > MEMORY_CAP ∨ CACHE_SIZE > MEMORY_SIZE then
    Except.error Fault.cacheTooLarge
  else Except.ok ()

/-- The function `initialize_cache`. -/
def initialize_cache : Except Fault Cache :=
  match validate_cache_size with
  | Except.error e => Except.error e
  | Except.ok _ => Except.ok newCache

/-- The state built at the start of `run_simulation`: `initialize_cache()`,
`initialize_memory()` and `newLRU((CACHE_SIZE/CACHE_BLOCK_SIZE)/ASSOCIATIVITY)`. -/
def initialState : State :=
  { cache := newCache
    lru := newLRU ((CACHE_SIZE / CACHE_BLOCK_SIZE) / ASSOCIATIVITY)
    memory := initialize_memory }

/-- The reads of a trace, one after the other, stopping at the first fault. -/
def readTrace : List Nat → State → Except Fault State
  | [], s => Except.ok s
  | address :: rest, s =>
      match read_word address s with
      | Except.error e => Except.error e
      | Except.ok s => readTrace rest s

/-- States reached from the initial state by reads that return. -/
inductive Reachable : State → Prop
  | init : Reachable initialState
  | read (s s' : State) (address : Nat) :
      Reachable s → read_word address s = Except.ok s' → Reachable s'

/-- The byte that `initialize_memory` leaves at address `k`: byte `k % 4` of the
little-endian encoding of the word-aligned address `k - k % 4`, as a `char`. -/
def initialByte (k : Nat) : Int :=
  toChar (((k - k % 4) / 256 ^ (k % 4) % 256 : Nat) : Int)

/-- The capacities of the queues of the global `lru`, in order. -/
def queueSizes (lru : LRU) : List Nat := lru.queues.map Queue.maxSize

/-! ## Definitions used in the statements and proofs below -/

/-- The amount that the inner loop of `endian_to_int` adds to `integer` over `n` iterations
starting at bit `j` of byte `i`, when no sum leaves the `int` range. -/
def endianBitsSum : Nat → Nat → Nat → Int → Int
  | 0, _, _, _ => 0
  | n + 1, j, i, byte =>
      (Int.natAbs (Int.tmod byte 2) : Int) * 2 ^ (j + i * BYTE_SIZE)
        + endianBitsSum n (j + 1) i (toChar (byte / 2))

/-- The queue array of `n` slots holds the most recent part `Q` of the recency order `T`,
preceded by `m` empty slots; `P` is the part of `T` that has left the queue. -/
def HoldsRecent (n : Nat) (array T : List Int) : Prop :=
  ∃ (P Q : List Int) (m : Nat), T = P ++ Q ∧ array = List.replicate m (-1) ++ Q
    ∧ m + Q.length = n ∧ (m = 0 ∨ P = [])

/-- The queue after the calls `addTagQueue(queue, t)` for the tags `t` of a list, in order. -/
def addTags (queue : Queue) : List Int → Queue
  | [] => queue
  | t :: ts => addTags (addTagQueue queue t).2 ts

/-- The recency order in the words of the specification: the tags touched so far, each
once, from the one touched longest ago to the most recently touched. A touch removes the
tag from the order, if present, and appends it. -/
def recencyOrder (order : List Int) : List Int → List Int
  | [] => order
  | t :: ts => recencyOrder (order.erase t ++ [t]) ts

/-- The state of one LRU queue in the configured program: capacity 128, holding the recent
part of a recency order whose tags lie between 0 and 64. -/
def QueueBounded (queue : Queue) : Prop :=
  queue.maxSize = 128
    ∧ ∃ T : List Int, HoldsRecent 128 queue.array T ∧ T.Nodup ∧ ∀ x ∈ T, 0 ≤ x ∧ x ≤ 64

/-- Every queue of the global `lru` is in the state `QueueBounded`. -/
def LruBounded (lru : LRU) : Prop := ∀ q ∈ lru.queues, QueueBounded q

/-- The cache has the geometry fields of `newCache`; only its blocks may differ. -/
def SameGeometry (cache : Cache) : Prop :=
  ∃ blocks : List Block, cache = { newCache with blocks := blocks }

/-- The calls `getEvictedTagLRU(lru, set, t)` for the tags `t` of a list, in order: the
returned values and the final `lru`. -/
def touchTags (lru : LRU) (set : Int) : List Int → Except Fault (List Int × LRU)
  | [] => Except.ok ([], lru)
  | t :: ts =>
      match getEvictedTagLRU lru set t with
      | Except.error e => Except.error e
      | Except.ok r =>
          match touchTags r.2 set ts with
          | Except.error e => Except.error e
          | Except.ok p => Except.ok (r.1 :: p.1, p.2)

/-- The block `b` after `pass_word_to_cache` has installed in it the word of memory at
`address`, at block offset `off`, under the tag `tag`. -/
def installWord (b : Block) (tag : Int) (off address : Nat) (memory : Array Int) : Block :=
  { b with
    tag := tag
    valid := 1
    clean := 1
    byte_array :=
      (((b.byte_array.set off (memory.getD address 0)).set (off + 1)
        (memory.getD (address + 1) 0)).set (off + 2) (memory.getD (address + 2) 0)).set
          (off + 3) (memory.getD (address + 3) 0) }

/-- The four bytes of the block at offset `off` are zero: the test by which
`pass_word_to_cache` takes a block to be free. -/
def WordZero (b : Block) (off : Nat) : Prop :=
  b.byte_array.getD off 0 = 0 ∧ b.byte_array.getD (off + 1) 0 = 0
    ∧ b.byte_array.getD (off + 2) 0 = 0 ∧ b.byte_array.getD (off + 3) 0 = 0

/-- The state `s` with the block at index `k` replaced by `b` and the global `lru` replaced
by `lru`. -/
def withBlock (s : State) (k : Nat) (b : Block) (lru : LRU) : State :=
  { cache := { s.cache with blocks := s.cache.blocks.set k b }, lru := lru, memory := s.memory }

instance (b : Block) (off : Nat) : Decidable (WordZero b off) := by
  unfold WordZero
  infer_instance

/-! ## Lemmas on address decomposition -/

theorem extractIntLoop_eq (n : Nat) : ∀ i value address : Nat,
    extractIntLoop n i value address = value + 2 ^ i * (address % 2 ^ n) := by
  induction n with
  | zero => intro i value address; simp [extractIntLoop, Nat.mod_one]
  | succ n ih =>
    intro i value address
    rw [extractIntLoop, ih]
    have h : address % 2 ^ (n + 1) = address % 2 + 2 * (address / 2 % 2 ^ n) := by
      rw [pow_succ', Nat.mod_mul]
    rw [h, pow_succ]
    ring

theorem extractInt_eq (address rightOffset length : Nat) :
    extractInt address rightOffset length = address / 2 ^ rightOffset % 2 ^ length := by
  simp [extractInt, extractIntLoop_eq]

theorem newCache_block_offset_length : newCache.block_offset_length = 8 := by decide

theorem newCache_index_length : newCache.index_length = 2 := by decide

theorem newCache_tag_length : newCache.tag_length = 22 := by decide


/-! ## Address decomposition: the claims -/

/-- C2. For every valid address (a multiple of the word size below the memory size) and
the cache built by `newCache`, the tag, index and block offset computed by the three
`calculate…` functions reassemble to the address:
`tag * 2^(index_length + block_offset_length) + index * 2^block_offset_length + offset`. -/
theorem decomposition_round_trip (a : Nat) (_halign : a % WORD_SIZE_BYTES = 0)
    (hlt : a < MEMORY_SIZE) :
    calculateTag newCache a * 2 ^ (newCache.index_length + newCache.block_offset_length)
      + calculateIndex newCache a * 2 ^ newCache.block_offset_length
      + calculateBlockOffset newCache a = a := by
  have hM : MEMORY_SIZE = 65536 := rfl
  rw [hM] at hlt
  simp only [calculateTag, calculateIndex, calculateBlockOffset, extractInt_eq,
    newCache_block_offset_length, newCache_index_length, newCache_tag_length]
  norm_num
  omega

theorem decomposition_round_trip_witness :
    calculateTag newCache 17536 * 2 ^ (newCache.index_length + newCache.block_offset_length)
      + calculateIndex newCache 17536 * 2 ^ newCache.block_offset_length
      + calculateBlockOffset newCache 17536 = 17536 :=
  decomposition_round_trip 17536 (by decide) (by decide)

/-- C3, evaluated on the code. `newCache` stores the truncated square roots of the block
size and of the number of sets as the field widths: `block_offset_length = 8`,
`index_length = 2` and `tag_length = 22`, whereas the base-two logarithms of the block
size `64 = 2^6` and of the number of sets `8 = 2^3` are `6` and `3`. -/
theorem newCache_field_widths :
    newCache.block_offset_length = 8 ∧ newCache.index_length = 2 ∧ newCache.tag_length = 22
      ∧ CACHE_BLOCK_SIZE = 2 ^ 6 ∧ newCache.numBlocks / ASSOCIATIVITY = 2 ^ 3 := by
  decide

/-- C4. On a 32-bit address, `extractInt(a, r, len)` with `r < 32` and `len ≤ 31` is the
field of `len` bits of `a` starting at bit `r` and fits an `int`; hence, for a cache
whose tag width is what remains of the 32 bits after the offset and index widths and is
itself at most 31 (so that each of the three calls has `len ≤ 31` and the `int`
accumulator stays in range), the block offset, index and tag are the bit ranges
`[0, off)`, `[off, off+idx)` and `[off+idx, 32)` of the address. -/
theorem extractInt_bit_range (cache : Cache) (a r len : Nat) (ha : a < 2 ^ 32) (_hr : r < 32)
    (hlen : len ≤ 31)
    (hw : cache.index_length + cache.block_offset_length < WORD_SIZE_BITS)
    (htag : cache.tag_length
      = WORD_SIZE_BITS - cache.index_length - cache.block_offset_length)
    (_htagle : cache.tag_length ≤ 31) :
    extractInt a r len = a / 2 ^ r % 2 ^ len
      ∧ extractInt a r len < 2 ^ 31
      ∧ calculateBlockOffset cache a = a % 2 ^ cache.block_offset_length
      ∧ calculateIndex cache a = a / 2 ^ cache.block_offset_length % 2 ^ cache.index_length
      ∧ calculateTag cache a = a / 2 ^ (cache.block_offset_length + cache.index_length) := by
  have hW : WORD_SIZE_BITS = 32 := rfl
  rw [hW] at hw htag
  refine ⟨extractInt_eq a r len, ?_, ?_, ?_, ?_⟩
  · rw [extractInt_eq]
    calc a / 2 ^ r % 2 ^ len < 2 ^ len := Nat.mod_lt _ (by positivity)
      _ ≤ 2 ^ 31 := Nat.pow_le_pow_right (by norm_num) hlen
  · simp [calculateBlockOffset, extractInt_eq]
  · simp [calculateIndex, extractInt_eq]
  · rw [calculateTag, extractInt_eq, htag, Nat.add_comm cache.index_length]
    apply Nat.mod_eq_of_lt
    rw [Nat.div_lt_iff_lt_mul (by positivity), ← pow_add]
    have : 32 - cache.index_length - cache.block_offset_length
        + (cache.block_offset_length + cache.index_length) = 32 := by omega
    rw [this]
    exact ha

theorem extractInt_bit_range_witness :
    extractInt 17536 8 2 = 17536 / 2 ^ 8 % 2 ^ 2
      ∧ extractInt 17536 8 2 < 2 ^ 31
      ∧ calculateBlockOffset newCache 17536 = 17536 % 2 ^ newCache.block_offset_length
      ∧ calculateIndex newCache 17536
          = 17536 / 2 ^ newCache.block_offset_length % 2 ^ newCache.index_length
      ∧ calculateTag newCache 17536
          = 17536 / 2 ^ (newCache.block_offset_length + newCache.index_length) :=
  extractInt_bit_range newCache 17536 8 2 (by norm_num) (by norm_num) (by norm_num)
    (by decide) (by decide) (by decide)

/-! ## Byte order and memory initialisation -/

theorem tmod_two_cast (m : Nat) : Int.tmod (m : Int) 2 = ((m % 2 : Nat) : Int) := rfl

theorem tdiv_two_cast (m : Nat) : Int.tdiv (m : Int) 2 = ((m / 2 : Nat) : Int) := rfl

theorem ediv_two_cast (m : Nat) : (m : Int) / 2 = ((m / 2 : Nat) : Int) := rfl

theorem mul_two_cast (m : Nat) : (m : Int) * 2 = ((m * 2 : Nat) : Int) := by push_cast; ring

theorem add_cast (m n : Nat) : (m : Int) + (n : Int) = ((m + n : Nat) : Int) := by push_cast; ring

theorem zero_add_cast (m : Nat) : (0 : Int) + (m : Int) = (m : Int) := by simp

theorem int_to_endian_loop_mid (n i : Nat) (integer byte : Int) (word : Word)
    (h : i % 8 ≠ 7) :
    int_to_endian_loop (n + 1) i integer byte word
      = int_to_endian_loop n (i + 1) (Int.tdiv integer 2)
          ((byte + Int.tmod integer 2) * 2) word := by
  rw [int_to_endian_loop]
  simp only [BYTE_SIZE, if_neg h]

theorem int_to_endian_loop_last (n i : Nat) (integer byte : Int) (word : Word)
    (h : i % 8 = 7) :
    int_to_endian_loop (n + 1) i integer byte word
      = int_to_endian_loop n (i + 1) (Int.tdiv integer 2) 0
          { bytes := word.bytes.set (i / 8)
              (toChar (reverseBitsLoop 7 (Int.tmod (byte + Int.tmod integer 2) 2)
                ((byte + Int.tmod integer 2) / 2))) } := by
  rw [int_to_endian_loop]
  simp only [BYTE_SIZE, if_pos h]

set_option maxRecDepth 100000 in
/-- Eight iterations of the loop of `int_to_endian`, starting at a byte boundary with a
non-negative `integer`, store its low byte and divide it by 256. -/
theorem int_to_endian_loop_byte (n k m : Nat) (word : Word) :
    int_to_endian_loop (n + 8) (8 * k) (m : Int) 0 word
      = int_to_endian_loop n (8 * (k + 1)) ((m / 256 : Nat) : Int) 0
          { bytes := word.bytes.set k (toChar ((m % 256 : Nat) : Int)) } := by
  rw [show n + 8 = n + 7 + 1 from rfl, int_to_endian_loop_mid _ _ _ _ _ (by omega),
    show n + 7 = n + 6 + 1 from rfl, int_to_endian_loop_mid _ _ _ _ _ (by omega),
    show n + 6 = n + 5 + 1 from rfl, int_to_endian_loop_mid _ _ _ _ _ (by omega),
    show n + 5 = n + 4 + 1 from rfl, int_to_endian_loop_mid _ _ _ _ _ (by omega),
    show n + 4 = n + 3 + 1 from rfl, int_to_endian_loop_mid _ _ _ _ _ (by omega),
    show n + 3 = n + 2 + 1 from rfl, int_to_endian_loop_mid _ _ _ _ _ (by omega),
    show n + 2 = n + 1 + 1 from rfl, int_to_endian_loop_mid _ _ _ _ _ (by omega),
    int_to_endian_loop_last _ _ _ _ _ (by omega)]
  simp only [reverseBitsLoop, tmod_two_cast, tdiv_two_cast, ediv_two_cast, mul_two_cast,
    add_cast, zero_add_cast]
  have e1 : (8 * k + 1 + 1 + 1 + 1 + 1 + 1 + 1) / 8 = k := by omega
  have e2 : 8 * k + 1 + 1 + 1 + 1 + 1 + 1 + 1 + 1 = 8 * (k + 1) := by omega
  have e3 : m / 2 / 2 / 2 / 2 / 2 / 2 / 2 / 2 = m / 256 := by omega
  rw [e1, e2, e3]
  congr 4
  have h0 : m % 2 = m % 256 % 2 := by omega
  have h1 : m / 2 % 2 = m % 256 / 2 % 2 := by omega
  have h2 : m / 2 / 2 % 2 = m % 256 / 2 / 2 % 2 := by omega
  have h3 : m / 2 / 2 / 2 % 2 = m % 256 / 2 / 2 / 2 % 2 := by omega
  have h4 : m / 2 / 2 / 2 / 2 % 2 = m % 256 / 2 / 2 / 2 / 2 % 2 := by omega
  have h5 : m / 2 / 2 / 2 / 2 / 2 % 2 = m % 256 / 2 / 2 / 2 / 2 / 2 % 2 := by omega
  have h6 : m / 2 / 2 / 2 / 2 / 2 / 2 % 2 = m % 256 / 2 / 2 / 2 / 2 / 2 / 2 % 2 := by omega
  have h7 : m / 2 / 2 / 2 / 2 / 2 / 2 / 2 % 2
      = m % 256 / 2 / 2 / 2 / 2 / 2 / 2 / 2 % 2 := by omega
  rw [h7, h6, h5, h4, h3, h2, h1, h0]
  have hv : m % 256 < 256 := Nat.mod_lt _ (by norm_num)
  generalize m % 256 = v at hv ⊢
  revert v
  decide


/-- The bytes stored by `int_to_endian` for a non-negative integer. -/
theorem int_to_endian_natCast (m : Nat) (word : Word) (hlen : word.bytes.length = 4) :
    int_to_endian (m : Int) word
      = { bytes := [toChar ((m % 256 : Nat) : Int), toChar ((m / 256 % 256 : Nat) : Int),
            toChar ((m / 256 / 256 % 256 : Nat) : Int),
            toChar ((m / 256 / 256 / 256 % 256 : Nat) : Int)] } := by
  obtain ⟨bytes⟩ := word
  obtain _ | ⟨b0, _ | ⟨b1, _ | ⟨b2, _ | ⟨b3, _ | ⟨b4, rest⟩⟩⟩⟩⟩ := bytes <;>
    simp at hlen
  have h := int_to_endian_loop_byte 24 0 m ⟨[b0, b1, b2, b3]⟩
  have h1 := int_to_endian_loop_byte 16 1 (m / 256)
  have h2 := int_to_endian_loop_byte 8 2 (m / 256 / 256)
  have h3 := int_to_endian_loop_byte 0 3 (m / 256 / 256 / 256)
  simp only [Nat.reduceAdd, Nat.reduceMul] at h h1 h2 h3
  rw [int_to_endian, show WORD_SIZE_BITS = 32 from rfl, h, h1, h2, h3]
  simp [int_to_endian_loop]

theorem getD_setD (m : Array Int) (k k' : Nat) (v : Int) :
    (m.setD k v).getD k' 0 = if k' = k ∧ k < m.size then v else m.getD k' 0 := by
  unfold Array.getD Array.setD
  by_cases hk : k < m.size
  · by_cases hk' : k' < m.size
    · by_cases e : k' = k
      · subst e; simp [hk]
      · have e' : k ≠ k' := fun h => e h.symm
        simp [hk, hk', e, Array.getElem_set, e']
    · have e : k' ≠ k := by omega
      simp [hk, hk', e]
  · simp [hk]

theorem storeWordLoop_four (i : Nat) (word : Word) (mem : Array Int) :
    storeWordLoop WORD_SIZE_BYTES 0 i word mem
      = (((mem.setD i (word.bytes.getD 0 0)).setD (i + 1) (word.bytes.getD 1 0)).setD
          (i + 2) (word.bytes.getD 2 0)).setD (i + 3) (word.bytes.getD 3 0) := by
  simp [storeWordLoop, WORD_SIZE_BYTES, WORD_SIZE_BITS, BYTE_SIZE]

theorem initialize_memory_loop_spec (fuel : Nat) : ∀ (i : Nat) (mem : Array Int),
    i % 4 = 0 → i ≤ 65536 → 65536 ≤ i + 4 * fuel → mem.size = 65536 →
    (∀ k, k < i → mem.getD k 0 = initialByte k) →
    (initialize_memory_loop fuel i mem).size = 65536
      ∧ ∀ k, k < 65536 → (initialize_memory_loop fuel i mem).getD k 0 = initialByte k := by
  induction fuel with
  | zero =>
    intro i mem _ hle hfuel hsize hpre
    have : i = 65536 := by omega
    subst this
    exact ⟨hsize, hpre⟩
  | succ fuel ih =>
    intro i mem hi hle hfuel hsize hpre
    rw [initialize_memory_loop]
    by_cases hlt : i < MEMORY_SIZE
    · rw [if_pos hlt]
      have hlt' : i < 65536 := hlt
      have hw : WORD_SIZE_BYTES = 4 := rfl
      apply ih
      · rw [hw]; omega
      · rw [hw]; omega
      · rw [hw]; omega
      · simp [storeWordLoop_four, Array.size_setD, hsize]
      · intro k hk
        rw [hw] at hk
        rw [storeWordLoop_four, int_to_endian_natCast i newWord rfl]
        simp only [getD_setD, Array.size_setD, hsize]
        by_cases h3 : k = i + 3
        · subst h3
          have e1 : (i + 3) % 4 = 3 := by omega
          have e2 : i + 3 - 3 = i := by omega
          simp [initialByte, e1, e2, Nat.div_div_eq_div_mul]
          omega
        · by_cases h2 : k = i + 2
          · subst h2
            have e1 : (i + 2) % 4 = 2 := by omega
            have e2 : i + 2 - 2 = i := by omega
            simp [initialByte, e1, e2, Nat.div_div_eq_div_mul]
            omega
          · by_cases h1 : k = i + 1
            · subst h1
              have e1 : (i + 1) % 4 = 1 := by omega
              have e2 : i + 1 - 1 = i := by omega
              simp [initialByte, e1, e2]
              omega
            · by_cases h0 : k = i
              · subst h0
                simp [initialByte, hi]
                omega
              · simp only [h3, h2, h1, h0, false_and, if_false]
                exact hpre k (by omega)
    · have : i = 65536 := by
        have : MEMORY_SIZE = 65536 := rfl
        omega
      subst this
      rw [if_neg hlt]
      exact ⟨hsize, hpre⟩

theorem initialize_memory_size : initialize_memory.size = 65536 :=
  (initialize_memory_loop_spec MEMORY_SIZE 0 (mkArray MEMORY_SIZE 0) rfl (by norm_num)
    (by simp [MEMORY_SIZE]) (by simp [MEMORY_SIZE]) (by intro k hk; omega)).1

theorem initialize_memory_getD (k : Nat) (hk : k < 65536) :
    initialize_memory.getD k 0 = initialByte k :=
  (initialize_memory_loop_spec MEMORY_SIZE 0 (mkArray MEMORY_SIZE 0) rfl (by norm_num)
    (by simp [MEMORY_SIZE]) (by simp [MEMORY_SIZE]) (by intro k hk; omega)).2 k hk


theorem getElem?_eq_some_getD (m : Array Int) (k : Nat) (h : k < m.size) :
    m[k]? = some (m.getD k 0) := by
  simp [Array.getD, h, Array.getElem?_eq_getElem]

theorem toChar_emod (v : Int) : toChar v % 256 = v % 256 := by
  unfold toChar
  omega

/-- C5. For every word-aligned `i` below the memory size and every `j` in `0..3`, the
memory returned by `initialize_memory` holds at address `i + j` the `char` whose eight
bits are `floor(i / 256^j) mod 256`, byte `j` of the little-endian encoding of `i`. -/
theorem initialize_memory_little_endian (i j : Nat) (halign : i % WORD_SIZE_BYTES = 0)
    (hi : i < MEMORY_SIZE) (hj : j < WORD_SIZE_BYTES) :
    ∃ byte : Int, initialize_memory[i + j]? = some byte
      ∧ byte = toChar ((i / 256 ^ j % 256 : Nat) : Int)
      ∧ byte % 256 = ((i / 256 ^ j % 256 : Nat) : Int) := by
  have hi' : i < 65536 := hi
  have hj' : j < 4 := hj
  have ha : i % 4 = 0 := halign
  have hk : i + j < 65536 := by omega
  refine ⟨initialize_memory.getD (i + j) 0, ?_, ?_, ?_⟩
  · exact getElem?_eq_some_getD _ _ (by rw [initialize_memory_size]; exact hk)
  · rw [initialize_memory_getD _ hk, initialByte]
    have e1 : (i + j) % 4 = j := by omega
    have e2 : i + j - j = i := by omega
    rw [e1, e2]
  · rw [initialize_memory_getD _ hk, initialByte, toChar_emod]
    have e1 : (i + j) % 4 = j := by omega
    have e2 : i + j - j = i := by omega
    rw [e1, e2]
    have hb : i / 256 ^ j % 256 < 256 := Nat.mod_lt _ (by norm_num)
    omega

theorem initialize_memory_little_endian_witness :
    ∃ byte : Int, initialize_memory[17536 + 1]? = some byte
      ∧ byte = toChar ((17536 / 256 ^ 1 % 256 : Nat) : Int)
      ∧ byte % 256 = ((17536 / 256 ^ 1 % 256 : Nat) : Int) :=
  initialize_memory_little_endian 17536 1 (by decide) (by decide) (by decide)

/-- C1, evaluated on the code. For the integer `-1`, `int_to_endian` stores the bytes
`-1, 0, 0, 0` and `endian_to_int` of that word returns `255`, not `-1`. -/
theorem endian_round_trip_negative_one :
    int_to_endian (-1) newWord = { bytes := [-1, 0, 0, 0] }
      ∧ endian_to_int (int_to_endian (-1) newWord) = some 255 := by
  decide

/-- C6, evaluated on the code. The address `MEMORY_SIZE = 65536` is not strictly below
the memory size, yet `validate_address` returns normally on it; `read_word` then goes on
and reads memory past its end. -/
theorem validate_address_accepts_memory_size :
    validate_address MEMORY_SIZE = Except.ok ()
      ∧ ¬ MEMORY_SIZE < MEMORY_SIZE
      ∧ read_word MEMORY_SIZE initialState = Except.error Fault.outOfBounds := by
  refine ⟨by rfl, by decide, by rfl⟩



/-! ## Writes -/

theorem write_word_two_memory (mem : Array Int) :
    Except.map State.memory
        (write_word 2 { bytes := [1, 1, 1, 1] }
          { cache := newCache, lru := newLRU 8, memory := mem })
      = Except.ok ((((mem.setD 2 1).setD 3 1).setD 4 1).setD 5 1) := by
  simp only [write_word, newCache]
  rfl

theorem write_word_two_tags :
    Except.map (fun s => (s.cache.blocks.map Block.tag, s.lru.queues.map
        (fun q => q.array.getD 127 0)))
        (write_word 2 { bytes := [1, 1, 1, 1] } initialState)
      = Except.ok ([-1, -1, -1, -1, 0, -1, -1, -1, -1, -1, -1, -1, -1, -1, -1, -1],
          [-1, -1, 0, -1, -1, -1, -1, -1]) := by
  rfl

/-- C7, evaluated on the code. The misaligned address `2` is not rejected by
`write_word`: the call returns, and it has changed the memory (byte `2` was `0` and is
now `1`), the tag of a cache block and an LRU queue. -/
theorem write_word_misaligned_not_rejected :
    ∃ s', write_word 2 { bytes := [1, 1, 1, 1] } initialState = Except.ok s'
      ∧ initialState.memory.getD 2 0 = 0 ∧ s'.memory.getD 2 0 = 1
      ∧ initialState.cache.blocks.map Block.tag = List.replicate 16 (-1)
      ∧ s'.cache.blocks.map Block.tag
          = [-1, -1, -1, -1, 0, -1, -1, -1, -1, -1, -1, -1, -1, -1, -1, -1]
      ∧ initialState.lru.queues.map (fun q => q.array.getD 127 0) = List.replicate 8 (-1)
      ∧ s'.lru.queues.map (fun q => q.array.getD 127 0) = [-1, -1, 0, -1, -1, -1, -1, -1] := by
  have hm := write_word_two_memory initialize_memory
  have ht := write_word_two_tags
  have hs : ({ cache := newCache, lru := newLRU 8, memory := initialize_memory } : State)
      = initialState := rfl
  rw [hs] at hm
  cases h : write_word 2 { bytes := [1, 1, 1, 1] } initialState with
  | error e => rw [h] at hm; cases hm
  | ok s' =>
    rw [h] at hm ht
    simp only [Except.map, Except.ok.injEq, Prod.mk.injEq] at hm ht
    refine ⟨s', rfl, ?_, ?_, by rfl, ht.1, by rfl, ht.2⟩
    · simp only [initialState]
      rw [initialize_memory_getD 2 (by norm_num)]
      simp [initialByte, toChar]
    · rw [hm]
      simp only [getD_setD, Array.size_setD, initialize_memory_size]
      norm_num

theorem write_word_four_installed (mem : Array Int) :
    Except.map (fun s => ((s.cache.blocks.getD 8 newBlock).byte_array.drop 4).take 4)
        (write_word 4 { bytes := [1, 2, 3, 4] }
          { cache := newCache, lru := newLRU 8, memory := mem })
      = Except.ok [mem.getD 4 0, mem.getD 5 0, mem.getD 6 0, mem.getD 7 0] := by
  simp only [write_word, newCache]
  rfl

theorem write_word_four_blocks :
    Except.map (fun s => (s.cache.blocks.map Block.tag,
          ((s.cache.blocks.getD 4 newBlock).byte_array.drop 4).take 4,
          Except.map Prod.fst (check_cache 4 s.cache s.lru)))
        (write_word 4 { bytes := [1, 2, 3, 4] } initialState)
      = Except.ok ([-1, -1, -1, -1, -1, -1, -1, -1, 0, -1, -1, -1, -1, -1, -1, -1],
          [1, 2, 3, 4], Except.ok WORD_HIT) := by
  rfl

/-- C9, evaluated on the code. After `write_word(4, w)` with `w.bytes = 1, 2, 3, 4` from
the initial state, a lookup of address `4` is a hit on block `8`, the only block whose
tag is `0`; that block holds the old memory bytes `4, 0, 0, 0` at offset `4..7`, and the
word was stored into block `4 = 4 % numBlocks`, which belongs to another set. -/
theorem write_word_stores_into_other_block :
    ∃ s', write_word 4 { bytes := [1, 2, 3, 4] } initialState = Except.ok s'
      ∧ Except.map Prod.fst (check_cache 4 s'.cache s'.lru) = Except.ok WORD_HIT
      ∧ (calculateTag newCache 4 : Int) = 0 ∧ calculateBlockOffset newCache 4 = 4
      ∧ s'.cache.blocks.map Block.tag
          = [-1, -1, -1, -1, -1, -1, -1, -1, 0, -1, -1, -1, -1, -1, -1, -1]
      ∧ ((s'.cache.blocks.getD 8 newBlock).byte_array.drop 4).take 4 = [4, 0, 0, 0]
      ∧ ((s'.cache.blocks.getD 4 newBlock).byte_array.drop 4).take 4 = [1, 2, 3, 4] := by
  have hi := write_word_four_installed initialize_memory
  have hb := write_word_four_blocks
  have hs : ({ cache := newCache, lru := newLRU 8, memory := initialize_memory } : State)
      = initialState := rfl
  rw [hs] at hi
  cases h : write_word 4 { bytes := [1, 2, 3, 4] } initialState with
  | error e => rw [h] at hb; cases hb
  | ok s' =>
    rw [h] at hb hi
    simp only [Except.map, Except.ok.injEq, Prod.mk.injEq] at hb hi
    obtain ⟨h1, h3, h4⟩ := hb
    refine ⟨s', rfl, h4, by rfl, by rfl, h1, ?_, h3⟩
    rw [hi, initialize_memory_getD 4 (by norm_num), initialize_memory_getD 5 (by norm_num),
      initialize_memory_getD 6 (by norm_num), initialize_memory_getD 7 (by norm_num)]
    simp [initialByte, toChar]


/-! ## Lookup after a read -/

theorem toChar_natCast (n : Nat) (h : n < 128) : toChar (n : Int) = (n : Int) := by
  unfold toChar
  omega

theorem atIndex_natCast {α : Type} (xs : List α) (n : Nat) : atIndex xs (n : Int) = xs[n]? := by
  simp [atIndex]

theorem atIndex_map {α β : Type} (f : α → β) (xs : List α) (k : Int) :
    atIndex (xs.map f) k = (atIndex xs k).map f := by
  unfold atIndex
  split <;> simp

theorem addTagQueue_maxSize (queue : Queue) (tag : Int) :
    (addTagQueue queue tag).2.maxSize = queue.maxSize := by
  unfold addTagQueue
  simp only
  split <;> rfl

theorem getEvictedTagLRU_ok_iff (lru : LRU) (set tag : Int) :
    (∃ r, getEvictedTagLRU lru set tag = Except.ok r)
      ↔ ∃ m : Nat, atIndex (queueSizes lru) set = some m ∧ ¬ (set > (m : Int) ∨ set < 0) := by
  unfold getEvictedTagLRU queueSizes
  rw [atIndex_map]
  cases atIndex lru.queues set with
  | none => simp
  | some queue =>
    by_cases h : set > (queue.maxSize : Int) ∨ set < 0
    · simp only [Option.map_some', Option.some.injEq, exists_eq_left', h, ite_true,
        not_true_eq_false, iff_false, not_exists]
      intro r hr
      cases hr
    · simp only [Option.map_some', Option.some.injEq, exists_eq_left', h, ite_false,
        not_false_eq_true, iff_true]
      exact ⟨_, rfl⟩

theorem getEvictedTagLRU_sizes (lru : LRU) (set tag : Int) (r : Int × LRU)
    (h : getEvictedTagLRU lru set tag = Except.ok r) : queueSizes r.2 = queueSizes lru := by
  unfold getEvictedTagLRU at h
  cases hq : atIndex lru.queues set with
  | none => rw [hq] at h; cases h
  | some queue =>
    rw [hq] at h
    simp only at h
    split at h
    · cases h
    · cases h
      simp only [queueSizes, List.map_set, addTagQueue_maxSize]
      unfold atIndex at hq
      split at hq
      · apply List.ext_getElem?
        intro n
        rw [List.getElem?_set]
        split
        · rename_i hn
          subst hn
          split
          · rw [List.getElem?_map, hq]; rfl
          · rename_i hlen
            rw [List.getElem?_eq_none (by omega)]
        · rfl
      · cases hq

theorem checkSetLoop_result (n : Nat) : ∀ (i : Nat) (cache : Cache) (set tag hit : Int),
    checkSetLoop n i cache set tag = Except.ok hit → hit = WORD_HIT ∨ hit = WORD_MISS := by
  induction n with
  | zero => intro i cache set tag hit h; cases h; right; rfl
  | succ n ih =>
    intro i cache set tag hit h
    rw [checkSetLoop] at h
    split at h
    · cases h
    · split at h
      · cases h; left; rfl
      · exact ih _ _ _ _ _ h

theorem checkSetLoop_blocks (n : Nat) : ∀ (i : Nat) (cache cache' : Cache) (set tag : Int),
    cache'.blocks = cache.blocks → cache'.associativity = cache.associativity →
    checkSetLoop n i cache' set tag = checkSetLoop n i cache set tag := by
  induction n with
  | zero => intros; rfl
  | succ n ih =>
    intro i cache cache' set tag hb ha
    rw [checkSetLoop, checkSetLoop, hb, ha, ih (i + 1) cache cache' set tag hb ha]

/-- A block of the scanned range that holds the tag makes the scan report a hit. -/
theorem checkSetLoop_hit (n : Nat) : ∀ (i k d : Nat) (cache : Cache) (tag : Int) (b : Block),
    i ≤ k → k < i + n → cache.blocks[cache.associativity * d + k]? = some b → b.tag = tag →
    checkSetLoop n i cache (d : Int) tag = Except.ok WORD_HIT := by
  induction n with
  | zero => intro i k d cache tag b h1 h2; omega
  | succ n ih =>
    intro i k d cache tag b h1 h2 hb ht
    rw [checkSetLoop]
    have hidx : (cache.associativity : Int) * (d : Int) + (i : Int)
        = ((cache.associativity * d + i : Nat) : Int) := by push_cast; ring
    rw [hidx, atIndex_natCast]
    have hlen : cache.associativity * d + k < cache.blocks.length := by
      by_contra hcon
      rw [List.getElem?_eq_none (by omega)] at hb
      cases hb
    have hi : cache.associativity * d + i < cache.blocks.length := by omega
    rw [List.getElem?_eq_getElem hi]
    simp only
    split
    · rfl
    · rename_i hne
      have hki : k ≠ i := by
        intro e
        subst e
        rw [List.getElem?_eq_getElem hi] at hb
        cases hb
        exact hne ht.symm
      exact ih (i + 1) k d cache tag b (by omega) (by omega) hb ht

theorem findEvictedLoop_range (n : Nat) : ∀ (i : Nat) (cache : Cache) (evictedTag : Int)
    (block : Option Nat) (k : Nat),
    findEvictedLoop n i cache evictedTag block = Except.ok (some k) →
    block = some k ∨ (i ≤ k ∧ k < i + n) := by
  induction n with
  | zero => intro i cache evictedTag block k h; cases h; left; rfl
  | succ n ih =>
    intro i cache evictedTag block k h
    rw [findEvictedLoop] at h
    split at h
    · cases h
    · rcases ih _ _ _ _ _ h with h' | h'
      · split at h'
        · cases h'; right; omega
        · left; exact h'
      · right; omega

theorem findEmptyLoop_range (n : Nat) : ∀ (i : Nat) (cache : Cache) (block_offset k : Nat),
    findEmptyLoop n i cache block_offset = Except.ok (some k) → i ≤ k ∧ k < i + n := by
  induction n with
  | zero => intro i cache block_offset k h; cases h
  | succ n ih =>
    intro i cache block_offset k h
    rw [findEmptyLoop] at h
    split at h
    · cases h
    · split at h
      · cases h
      · cases h; omega
      · have := ih _ _ _ _ h
        omega

theorem fillWordLoop_tag (n : Nat) : ∀ (i block_offset address : Nat) (memory : Array Int)
    (block block' : Block),
    fillWordLoop n i block_offset address memory block = Except.ok block' →
    block'.tag = block.tag := by
  induction n with
  | zero => intro i block_offset address memory block block' h; cases h; rfl
  | succ n ih =>
    intro i block_offset address memory block block' h
    rw [fillWordLoop] at h
    split at h
    · have htag := ih _ _ _ _ _ _ h
      exact htag
    · cases h

theorem installBlock_spec (cache cache' : Cache) (k address : Nat) (memory : Array Int)
    (h : installBlock cache k address memory = Except.ok cache') :
    k < cache.blocks.length
      ∧ ∃ b, cache' = { cache with blocks := cache.blocks.set k b }
          ∧ b.tag = (calculateTag cache address : Int) := by
  unfold installBlock at h
  split at h
  · cases h
  · rename_i b hb
    simp only at h
    split at h
    · cases h
    · rename_i b' hfill
      cases h
      refine ⟨?_, b', rfl, ?_⟩
      · by_contra hcon
        rw [List.getElem?_eq_none (by omega)] at hb
        cases hb
      · rw [fillWordLoop_tag _ _ _ _ _ _ _ hfill]


theorem pass_word_to_cache_spec (address : Nat) (memory : Array Int) (cache : Cache) (lru : LRU)
    (p : Cache × LRU) (hassoc : cache.associativity = 2)
    (h : pass_word_to_cache address memory cache lru = Except.ok p) :
    ∃ k b, k < 2 ∧ cache.associativity * (address % (cache.numBlocks / 2)) + k < cache.blocks.length
      ∧ p.1 = { cache with
          blocks := cache.blocks.set (cache.associativity * (address % (cache.numBlocks / 2)) + k) b }
      ∧ b.tag = (calculateTag cache address : Int)
      ∧ queueSizes p.2 = queueSizes lru := by
  unfold pass_word_to_cache at h
  rw [if_neg (by omega), if_pos (by omega)] at h
  simp only [hassoc] at h
  split at h
  · cases h
  · rename_i r hr
    have hsz := getEvictedTagLRU_sizes _ _ _ _ hr
    split at h
    · cases h
    · cases h
    · rename_i k hsearch
      have hk : address % (cache.numBlocks / 2) * 2 ≤ k
          ∧ k < address % (cache.numBlocks / 2) * 2 + 2 := by
        split at hsearch
        · rcases findEvictedLoop_range _ _ _ _ _ _ hsearch with h' | h'
          · cases h'
          · exact h'
        · exact findEmptyLoop_range _ _ _ _ _ hsearch
      split at h
      · cases h
      · rename_i c' hinst
        cases h
        obtain ⟨hlen, b, hc', hb⟩ := installBlock_spec _ _ _ _ _ hinst
        refine ⟨k - address % (cache.numBlocks / 2) * 2, b, by omega, ?_, ?_, hb, hsz⟩
        · rw [hassoc]; omega
        · have e : 2 * (address % (cache.numBlocks / 2))
              + (k - address % (cache.numBlocks / 2) * 2) = k := by omega
          rw [hc', hassoc, e]

theorem check_cache_eq (address : Nat) (cache : Cache) (lru : LRU)
    (hassoc : cache.associativity = 2) (hnb : cache.numBlocks = 16) :
    check_cache address cache lru
      = match getEvictedTagLRU lru ((address % 8 : Nat) : Int) (calculateTag cache address) with
        | Except.error e => Except.error e
        | Except.ok r =>
            match checkSetLoop 2 0 cache ((address % 8 : Nat) : Int)
                (calculateTag cache address) with
            | Except.error e => Except.error e
            | Except.ok hit => Except.ok (hit, r.2) := by
  unfold check_cache
  rw [if_neg (by omega)]
  simp only [hassoc, hnb]
  rw [show (16 : Nat) / 2 = 8 from rfl,
    toChar_natCast _ (by have := Nat.mod_lt address (show 0 < 8 by norm_num); omega)]

/-- A read that returns leaves the cache in a state where looking the address up again
is a hit; the geometry fields of the cache are unchanged. -/
theorem read_word_then_hit (s s' : State) (address : Nat)
    (hassoc : s.cache.associativity = 2) (hnb : s.cache.numBlocks = 16)
    (h : read_word address s = Except.ok s') :
    (∃ lru', check_cache address s'.cache s'.lru = Except.ok (WORD_HIT, lru'))
      ∧ s'.cache.associativity = 2 ∧ s'.cache.numBlocks = 16 := by
  unfold read_word at h
  split at h
  · cases h
  · split at h
    · cases h
    · rename_i r hcc
      rw [check_cache_eq _ _ _ hassoc hnb] at hcc
      split at hcc
      · cases hcc
      · rename_i r0 hr0
        split at hcc
        · cases hcc
        · rename_i hit hscan
          cases hcc
          have hsz0 := getEvictedTagLRU_sizes _ _ _ _ hr0
          have hok0 := (getEvictedTagLRU_ok_iff _ _ _).1 ⟨r0, hr0⟩
          simp only at h
          split at h
          · -- miss: the block is installed
            split at h
            · cases h
            · rename_i p hp
              cases h
              obtain ⟨k, b, hk, hlen, hp1, hb, hsz⟩ := pass_word_to_cache_spec _ _ _ _ _ hassoc hp
              have hassoc' : p.1.associativity = 2 := by rw [hp1]; exact hassoc
              have hnb' : p.1.numBlocks = 16 := by rw [hp1]; exact hnb
              have htag : calculateTag p.1 address = calculateTag s.cache address := by
                rw [hp1]; rfl
              refine ⟨?_, hassoc', hnb'⟩
              simp only
              rw [check_cache_eq _ _ _ hassoc' hnb', htag]
              obtain ⟨r2, hr2⟩ := (getEvictedTagLRU_ok_iff p.2 ((address % 8 : Nat) : Int)
                (calculateTag s.cache address)).2 (by rw [hsz, hsz0]; exact hok0)
              rw [hr2]
              simp only
              have hnb8 : s.cache.numBlocks / 2 = 8 := by rw [hnb]
              rw [hnb8] at hlen hp1
              have hscan' : checkSetLoop 2 0 p.1 ((address % 8 : Nat) : Int)
                  (calculateTag s.cache address) = Except.ok WORD_HIT := by
                apply checkSetLoop_hit 2 0 k (address % 8) p.1 _ b (by omega) (by omega) _ hb
                rw [hp1]
                simp only
                rw [List.getElem?_set_self hlen]
              rw [hscan']
              exact ⟨_, rfl⟩
          · -- hit: the blocks are unchanged
            rename_i hmiss
            cases h
            refine ⟨?_, hassoc, hnb⟩
            simp only
            rw [check_cache_eq _ _ _ hassoc hnb]
            obtain ⟨r2, hr2⟩ := (getEvictedTagLRU_ok_iff r0.2 ((address % 8 : Nat) : Int)
              (calculateTag s.cache address)).2 (by rw [hsz0]; exact hok0)
            rw [hr2, hscan]
            simp only
            rcases checkSetLoop_result _ _ _ _ _ _ hscan with e | e
            · rw [e]; exact ⟨_, rfl⟩
            · exact absurd e hmiss

theorem reachable_geometry (s : State) (h : Reachable s) :
    s.cache.associativity = 2 ∧ s.cache.numBlocks = 16 := by
  induction h with
  | init => exact ⟨rfl, rfl⟩
  | read s s' address _ hread ih => exact (read_word_then_hit s s' address ih.1 ih.2 hread).2

/-- C10. In every state reached from the initial state by reads, if `read_word(a)` returns
(which includes that `a` passed `validate_address` and, on a miss, that a victim block was
selected and installed), then the lookup `check_cache(a)` that follows returns `WORD_HIT`. -/
theorem read_then_lookup_hits (s s' : State) (a : Nat) (hreach : Reachable s)
    (hread : read_word a s = Except.ok s') :
    ∃ lru', check_cache a s'.cache s'.lru = Except.ok (WORD_HIT, lru') :=
  (read_word_then_hit s s' a (reachable_geometry s hreach).1 (reachable_geometry s hreach).2
    hread).1


theorem read_word_four_returns : (read_word 4 initialState).isOk = true := by rfl

theorem read_then_lookup_hits_witness :
    ∃ s', read_word 4 initialState = Except.ok s'
      ∧ ∃ lru', check_cache 4 s'.cache s'.lru = Except.ok (WORD_HIT, lru') := by
  cases h : read_word 4 initialState with
  | error e =>
    have hok := read_word_four_returns
    rw [h] at hok
    cases hok
  | ok s' => exact ⟨s', rfl, read_then_lookup_hits initialState s' 4 Reachable.init h⟩

/-! ## Decoding: `endian_to_int` -/

theorem endianBitsSum_nonneg (n : Nat) : ∀ (j i : Nat) (byte : Int),
    0 ≤ endianBitsSum n j i byte := by
  induction n with
  | zero => intro j i byte; simp [endianBitsSum]
  | succ n ih =>
    intro j i byte
    rw [endianBitsSum]
    have := ih (j + 1) i (toChar (byte / 2))
    positivity

theorem endianBitsLoop_eq (n : Nat) : ∀ (j i : Nat) (byte integer : Int),
    integer + endianBitsSum n j i byte ≤ INT_MAX →
    endianBitsLoop n j i byte integer = some (integer + endianBitsSum n j i byte) := by
  induction n with
  | zero => intro j i byte integer _; simp [endianBitsLoop, endianBitsSum]
  | succ n ih =>
    intro j i byte integer h
    rw [endianBitsSum] at h ⊢
    rw [endianBitsLoop]
    have hn := endianBitsSum_nonneg n (j + 1) i (toChar (byte / 2))
    rw [if_pos (by omega), ih _ _ _ _ (by omega)]
    congr 1
    ring

set_option maxRecDepth 100000 in
theorem endianBitsSum_byte : ∀ i, i < 4 → ∀ v, v < 256 →
    endianBitsSum 8 0 i (toChar ((v : Nat) : Int)) = (v : Int) * 2 ^ (8 * i) := by
  decide

theorem endian_to_int_bytes (v0 v1 v2 v3 : Nat) (h0 : v0 < 256) (h1 : v1 < 256)
    (h2 : v2 < 256) (h3 : v3 < 256)
    (hsum : v0 + v1 * 2 ^ 8 + v2 * 2 ^ 16 + v3 * 2 ^ 24 < 2 ^ 31) :
    endian_to_int { bytes := [toChar (v0 : Int), toChar (v1 : Int), toChar (v2 : Int),
        toChar (v3 : Int)] }
      = some ((v0 + v1 * 2 ^ 8 + v2 * 2 ^ 16 + v3 * 2 ^ 24 : Nat) : Int) := by
  have e0 := endianBitsSum_byte 0 (by norm_num) v0 h0
  have e1 := endianBitsSum_byte 1 (by norm_num) v1 h1
  have e2 := endianBitsSum_byte 2 (by norm_num) v2 h2
  have e3 := endianBitsSum_byte 3 (by norm_num) v3 h3
  have hmax : INT_MAX = 2 ^ 31 - 1 := rfl
  have hs : ((v0 + v1 * 2 ^ 8 + v2 * 2 ^ 16 + v3 * 2 ^ 24 : Nat) : Int) < 2 ^ 31 := by
    exact_mod_cast hsum
  push_cast at hs
  norm_num at e0 e1 e2 e3 hs
  unfold endian_to_int
  rw [show WORD_SIZE_BYTES = 4 from rfl]
  simp only [endianBytesLoop, show BYTE_SIZE = 8 from rfl, List.getD_cons_zero,
    List.getD_cons_succ]
  rw [endianBitsLoop_eq _ _ _ _ _ (by rw [e0, hmax]; omega), e0]
  simp only
  rw [endianBitsLoop_eq _ _ _ _ _ (by rw [e1, hmax]; omega), e1]
  simp only
  rw [endianBitsLoop_eq _ _ _ _ _ (by rw [e2, hmax]; omega), e2]
  simp only
  rw [endianBitsLoop_eq _ _ _ _ _ (by rw [e3, hmax]; omega), e3]
  simp only [Option.some.injEq]
  push_cast
  ring

/-- C20. For every integer `x` with `0 ≤ x < 2^31`, `int_to_endian(x)` stores in byte `k`
(`k` in `0..3`) the `char` whose eight bits are `floor(x / 256^k) mod 256`, and
`endian_to_int` of that word returns `x`. -/
theorem endian_round_trip_nonneg (x : Int) (word : Word) (h0 : 0 ≤ x) (h1 : x < 2 ^ 31)
    (hlen : word.bytes.length = WORD_SIZE_BYTES) :
    (∀ k, k < WORD_SIZE_BYTES →
        (int_to_endian x word).bytes[k]? = some (toChar (x / 256 ^ k % 256)))
      ∧ endian_to_int (int_to_endian x word) = some x := by
  obtain ⟨m, rfl⟩ := Int.eq_ofNat_of_zero_le h0
  have hm : m < 2 ^ 31 := by exact_mod_cast h1
  rw [int_to_endian_natCast m word hlen]
  constructor
  · intro k hk
    have hk4 : k < 4 := hk
    interval_cases k
    · simp
    · simp
    · simp only [List.getElem?_cons_succ, List.getElem?_cons_zero, Option.some.injEq]
      congr 1
      push_cast
      omega
    · simp only [List.getElem?_cons_succ, List.getElem?_cons_zero, Option.some.injEq]
      congr 1
      push_cast
      omega
  · rw [endian_to_int_bytes _ _ _ _ (Nat.mod_lt _ (by norm_num)) (Nat.mod_lt _ (by norm_num))
      (Nat.mod_lt _ (by norm_num)) (Nat.mod_lt _ (by norm_num)) (by omega)]
    congr 2
    omega

theorem endian_round_trip_nonneg_witness :
    (∀ k, k < WORD_SIZE_BYTES →
        (int_to_endian 17536 newWord).bytes[k]? = some (toChar (17536 / 256 ^ k % 256)))
      ∧ endian_to_int (int_to_endian 17536 newWord) = some 17536 :=
  endian_round_trip_nonneg 17536 newWord (by norm_num) (by norm_num) rfl

/-! ## The queue operation `addTagQueue` -/

theorem findTagLoop_eq (c : Nat) : ∀ (i : Nat) (array : List Int) (tag : Int),
    i + c = array.length →
    findTagLoop c i array tag
      = if tag ∈ array.drop i then i + (array.drop i).indexOf tag else 0 := by
  induction c with
  | zero =>
    intro i array tag h
    rw [findTagLoop, List.drop_of_length_le (by omega)]
    simp
  | succ c ih =>
    intro i array tag h
    have hi : i < array.length := by omega
    rw [findTagLoop, List.drop_eq_getElem_cons hi, List.getD_eq_getElem _ _ hi]
    by_cases he : array[i] = tag
    · simp [he]
    · rw [if_neg he, ih (i + 1) array tag (by omega)]
      have he' : ¬ tag = array[i] := fun e => he e.symm
      simp only [List.mem_cons, he', false_or, List.indexOf_cons]
      have hb : (array[i] == tag) = false := by simpa using he
      rw [hb]
      simp only [cond_false]
      split <;> omega

theorem shiftLoop_spec (c : Nat) : ∀ (i : Nat) (array : List Int),
    1 ≤ i → i + c ≤ array.length →
    (shiftLoop c i array).length = array.length
      ∧ ∀ j, (shiftLoop c i array)[j]?
          = if i - 1 ≤ j ∧ j < i - 1 + c then array[j + 1]? else array[j]? := by
  induction c with
  | zero =>
    intro i array _ _
    refine ⟨rfl, fun j => ?_⟩
    rw [shiftLoop, if_neg (by omega)]
  | succ c ih =>
    intro i array h1 h2
    rw [shiftLoop]
    obtain ⟨hlen, hget⟩ := ih (i + 1) (array.set (i - 1) (array.getD i 0)) (by omega)
      (by rw [List.length_set]; omega)
    refine ⟨by rw [hlen, List.length_set], fun j => ?_⟩
    rw [hget j]
    have hi : i < array.length := by omega
    simp only [List.getElem?_set, List.getD_eq_getElem _ _ hi, Nat.add_sub_cancel]
    by_cases hj : j = i - 1
    · subst hj
      have e : i - 1 + 1 = i := by omega
      rw [if_neg (by omega), if_pos rfl, if_pos (by omega), if_pos (by omega), e,
        List.getElem?_eq_getElem hi]
    · by_cases hr : i ≤ j ∧ j < i + c
      · rw [if_pos hr, if_neg (by omega), if_pos (by omega)]
      · rw [if_neg hr, if_neg (by omega), if_neg (by omega)]

/-- The index that the search loop of `addTagQueue` leaves in `itemIndex`: the first
index holding the tag, or `0` when the tag is absent. -/
theorem findTagLoop_indexOf (array : List Int) (tag : Int) :
    findTagLoop array.length 0 array tag
      = if tag ∈ array then array.indexOf tag else 0 := by
  rw [findTagLoop_eq _ _ _ _ (by omega)]
  simp

theorem addTagQueue_array (queue : Queue) (tag : Int) (hsize : 1 ≤ queue.maxSize)
    (hlen : queue.array.length = queue.maxSize) :
    (addTagQueue queue tag).2.array
      = queue.array.eraseIdx (if tag ∈ queue.array then queue.array.indexOf tag else 0)
          ++ [tag] := by
  have harr : (addTagQueue queue tag).2.array
      = (shiftLoop (queue.maxSize - (findTagLoop queue.maxSize 0 queue.array tag + 1))
          (findTagLoop queue.maxSize 0 queue.array tag + 1) queue.array).set
            (queue.maxSize - 1) tag := by
    unfold addTagQueue
    simp only
    split <;> rfl
  rw [harr, ← hlen, findTagLoop_indexOf]
  generalize hk : (if tag ∈ queue.array then queue.array.indexOf tag else 0) = k
  have hklt : k < queue.array.length := by
    rw [← hk]
    split
    · rename_i hmem
      exact List.indexOf_lt_length.2 hmem
    · omega
  obtain ⟨hl, hg⟩ := shiftLoop_spec (queue.array.length - (k + 1)) (k + 1) queue.array
    (by omega) (by omega)
  apply List.ext_getElem?
  intro j
  rw [List.getElem?_set, hl, hg j, List.getElem?_append, List.getElem?_eraseIdx,
    List.length_eraseIdx, if_pos hklt]
  by_cases h1 : queue.array.length - 1 = j
  · subst h1
    rw [if_pos rfl, if_pos (by omega), if_neg (by omega)]
    simp
  · rw [if_neg h1]
    by_cases h2 : j < queue.array.length - 1
    · rw [if_pos h2]
      by_cases h3 : j < k
      · rw [if_pos h3, if_neg (by omega)]
      · rw [if_neg h3, if_pos (by omega)]
    · rw [if_neg h2, if_neg (by omega), List.getElem?_eq_none (by omega)]
      have : 1 ≤ j - (queue.array.length - 1) := by omega
      rw [List.getElem?_eq_none (by simpa using this)]

theorem ne_of_lt_indexOf (array : List Int) (tag : Int) (j : Nat)
    (hj : j < array.indexOf tag) : array[j]? ≠ some tag := by
  induction array generalizing j with
  | nil => simp
  | cons x xs ih =>
    rw [List.indexOf_cons] at hj
    by_cases hx : x = tag
    · simp [hx] at hj
    · have hb : (x == tag) = false := by simpa using hx
      rw [hb] at hj
      simp only [cond_false] at hj
      cases j with
      | zero => simpa using hx
      | succ j =>
        rw [List.getElem?_cons_succ]
        exact ih j (by omega)

/-- C16. For every queue with `maxSize ≥ 1` (its array holding `maxSize` entries) and
every tag `t`, `addTagQueue` leaves the array equal to the old array with the entry at
position `k` removed and `t` appended in the last slot, where `k` is the first index
holding `t`, or `0` if `t` is absent; `maxSize` is unchanged. -/
theorem addTagQueue_moves_tag_to_back (queue : Queue) (t : Int) (hsize : 1 ≤ queue.maxSize)
    (hlen : queue.array.length = queue.maxSize) :
    ∃ k, (t ∈ queue.array → queue.array[k]? = some t ∧ ∀ j, j < k → queue.array[j]? ≠ some t)
      ∧ (t ∉ queue.array → k = 0)
      ∧ (addTagQueue queue t).2.array = queue.array.eraseIdx k ++ [t]
      ∧ (addTagQueue queue t).2.array.length = queue.maxSize
      ∧ (addTagQueue queue t).2.maxSize = queue.maxSize := by
  refine ⟨if t ∈ queue.array then queue.array.indexOf t else 0, ?_, ?_,
    addTagQueue_array queue t hsize hlen, ?_, addTagQueue_maxSize queue t⟩
  · intro hmem
    rw [if_pos hmem]
    have hlt := List.indexOf_lt_length.2 hmem
    refine ⟨?_, fun j hj => ne_of_lt_indexOf _ _ _ hj⟩
    rw [List.getElem?_eq_getElem hlt, List.getElem_indexOf]
  · intro hmem
    rw [if_neg hmem]
  · rw [addTagQueue_array queue t hsize hlen, List.length_append, List.length_eraseIdx]
    have hk : (if t ∈ queue.array then queue.array.indexOf t else 0) < queue.array.length := by
      split
      · rename_i hmem
        exact List.indexOf_lt_length.2 hmem
      · omega
    rw [if_pos hk]
    simp
    omega

theorem addTagQueue_moves_tag_to_back_witness :
    ∃ k, ((7 : Int) ∈ (Queue.mk 3 [5, 7, 9]).array → (Queue.mk 3 [5, 7, 9]).array[k]? = some 7
          ∧ ∀ j, j < k → (Queue.mk 3 [5, 7, 9]).array[j]? ≠ some 7)
      ∧ ((7 : Int) ∉ (Queue.mk 3 [5, 7, 9]).array → k = 0)
      ∧ (addTagQueue (Queue.mk 3 [5, 7, 9]) 7).2.array
          = (Queue.mk 3 [5, 7, 9]).array.eraseIdx k ++ [7]
      ∧ (addTagQueue (Queue.mk 3 [5, 7, 9]) 7).2.array.length = (Queue.mk 3 [5, 7, 9]).maxSize
      ∧ (addTagQueue (Queue.mk 3 [5, 7, 9]) 7).2.maxSize = (Queue.mk 3 [5, 7, 9]).maxSize :=
  addTagQueue_moves_tag_to_back (Queue.mk 3 [5, 7, 9]) 7 (by decide) (by decide)

/-! ## Recency order of a queue -/

theorem holdsRecent_step (n : Nat) (array T : List Int) (t : Int) (hn : 1 ≤ n)
    (hnodup : T.Nodup) (ht : t ≠ -1) (h : HoldsRecent n array T) :
    HoldsRecent n
      (array.eraseIdx (if t ∈ array then array.indexOf t else 0) ++ [t])
      (T.erase t ++ [t]) := by
  obtain ⟨P, Q, m, hT, harr, hsum, hPm⟩ := h
  subst hT harr
  have hrep : t ∉ List.replicate m (-1 : Int) := by
    intro hmem
    exact ht (List.eq_of_mem_replicate hmem)
  have hmemarr : t ∈ List.replicate m (-1 : Int) ++ Q ↔ t ∈ Q := by
    simp [List.mem_append, hrep]
  obtain ⟨hPn, hQn, hdisj⟩ := List.nodup_append.1 hnodup
  by_cases hQ : t ∈ Q
  · -- the tag is in the queue: it moves to the back
    have hP : t ∉ P := fun hp => hdisj hp hQ
    refine ⟨P, Q.erase t ++ [t], m, ?_, ?_, ?_, hPm⟩
    · rw [List.erase_append_right _ hP, List.append_assoc]
    · rw [if_pos (hmemarr.2 hQ), List.indexOf_append_of_not_mem hrep,
        List.eraseIdx_append_of_length_le (by simp), List.length_replicate,
        Nat.add_sub_cancel_left, List.eraseIdx_indexOf_eq_erase, List.append_assoc]
    · rw [List.length_append, List.length_erase_of_mem hQ, List.length_singleton]
      have : 0 < Q.length := List.length_pos_of_mem hQ
      omega
  · rw [if_neg (fun hm => hQ (hmemarr.1 hm)), List.eraseIdx_zero]
    rcases Nat.eq_zero_or_pos m with hm0 | hmpos
    · -- the queue is full: the front entry leaves
      subst hm0
      obtain _ | ⟨q0, Q0⟩ := Q
      · simp at hsum; omega
      · simp only [List.replicate_zero, List.nil_append, List.tail_cons]
        by_cases hP : t ∈ P
        · refine ⟨P.erase t ++ [q0], Q0 ++ [t], 0, ?_, by simp, ?_, Or.inl rfl⟩
          · rw [List.erase_append_left _ hP]
            simp [List.append_assoc]
          · simp at hsum ⊢; omega
        · refine ⟨P ++ [q0], Q0 ++ [t], 0, ?_, by simp, ?_, Or.inl rfl⟩
          · rw [List.erase_of_not_mem]
            · simp [List.append_assoc]
            · intro hmem
              rcases List.mem_append.1 hmem with h' | h'
              · exact hP h'
              · exact hQ h'
          · simp at hsum ⊢; omega
    · -- an empty slot is used
      have hPnil : P = [] := by
        rcases hPm with h0 | h0
        · omega
        · exact h0
      subst hPnil
      obtain ⟨m', rfl⟩ : ∃ m', m = m' + 1 := ⟨m - 1, by omega⟩
      refine ⟨[], Q ++ [t], m', ?_, ?_, ?_, Or.inr rfl⟩
      · rw [List.nil_append, List.nil_append, List.erase_of_not_mem hQ]
      · rw [List.replicate_succ, List.cons_append, List.tail_cons, List.append_assoc]
      · simp; omega

theorem nodup_touch (T : List Int) (t : Int) (h : T.Nodup) : (T.erase t ++ [t]).Nodup := by
  rw [List.nodup_append]
  refine ⟨h.erase t, List.nodup_singleton t, ?_⟩
  intro x hx hx'
  rw [List.mem_singleton] at hx'
  subst hx'
  exact (h.mem_erase_iff.1 hx).1 rfl

theorem holdsRecent_drop (n : Nat) (array T : List Int) (h : HoldsRecent n array T) :
    array = List.replicate (n - T.length) (-1) ++ T.drop (T.length - n) := by
  obtain ⟨P, Q, m, hT, harr, hsum, hPm⟩ := h
  subst hT harr
  rcases hPm with h0 | h0
  · subst h0
    have e1 : n - (P ++ Q).length = 0 := by simp; omega
    have e2 : (P ++ Q).length - n = P.length := by simp; omega
    rw [e1, e2, List.drop_left]
  · subst h0
    have e1 : n - ([] ++ Q).length = m := by simp; omega
    have e2 : ([] ++ Q).length - n = 0 := by simp; omega
    rw [e1, e2]
    simp

theorem holdsRecent_length (n : Nat) (array T : List Int) (h : HoldsRecent n array T) :
    array.length = n := by
  obtain ⟨P, Q, m, _, harr, hsum, _⟩ := h
  subst harr
  simp [hsum]

theorem addTags_holdsRecent (n : Nat) (hn : 1 ≤ n) : ∀ (ts : List Int) (queue : Queue)
    (T : List Int), queue.maxSize = n → HoldsRecent n queue.array T → T.Nodup →
    (∀ x ∈ T, x ≠ -1) → (∀ t ∈ ts, 0 ≤ t) →
    (addTags queue ts).maxSize = n
      ∧ HoldsRecent n (addTags queue ts).array (recencyOrder T ts)
      ∧ (recencyOrder T ts).Nodup ∧ ∀ x ∈ recencyOrder T ts, x ≠ -1 := by
  intro ts
  induction ts with
  | nil => intro queue T hmax h hnd hne _; exact ⟨hmax, h, hnd, hne⟩
  | cons t ts ih =>
    intro queue T hmax h hnd hne hts
    have ht0 : 0 ≤ t := hts t (List.mem_cons_self _ _)
    have ht : t ≠ -1 := by omega
    rw [addTags, recencyOrder]
    apply ih
    · rw [addTagQueue_maxSize, hmax]
    · rw [addTagQueue_array queue t (by omega)
        (by rw [holdsRecent_length n _ _ h, hmax])]
      exact holdsRecent_step n queue.array T t hn hnd ht h
    · exact nodup_touch T t hnd
    · intro x hx
      rcases List.mem_append.1 hx with h' | h'
      · exact hne x (List.mem_of_mem_erase h')
      · rw [List.mem_singleton] at h'
        omega
    · exact fun t' ht' => hts t' (List.mem_cons_of_mem _ ht')

theorem holdsRecent_newQueue (n : Nat) : HoldsRecent n (newQueue n).array [] :=
  ⟨[], [], n, rfl, by simp [newQueue], by simp, Or.inr rfl⟩

theorem holdsRecent_no_duplicate (n : Nat) (array T : List Int) (h : HoldsRecent n array T)
    (hnd : T.Nodup) (i j : Nat) (x : Int) (hi : array[i]? = some x) (hj : array[j]? = some x)
    (hx : x ≠ -1) : i = j := by
  obtain ⟨P, Q, m, hT, harr, hsum, _⟩ := h
  subst hT harr
  have hQ : Q.Nodup := (List.nodup_append.1 hnd).2.1
  rw [List.getElem?_append, List.length_replicate] at hi hj
  have him : ¬ i < m := by
    intro hlt
    rw [if_pos hlt, List.getElem?_replicate, if_pos hlt] at hi
    exact hx (Option.some.inj hi).symm
  have hjm : ¬ j < m := by
    intro hlt
    rw [if_pos hlt, List.getElem?_replicate, if_pos hlt] at hj
    exact hx (Option.some.inj hj).symm
  rw [if_neg him] at hi
  rw [if_neg hjm] at hj
  obtain ⟨hi1, hi2⟩ := List.getElem?_eq_some.1 hi
  obtain ⟨hj1, hj2⟩ := List.getElem?_eq_some.1 hj
  have := (List.Nodup.getElem_inj_iff hQ).1 (hi2.trans hj2.symm)
  omega

/-- C17. Starting from `newQueue` (every slot `-1`, capacity at least one), after any
sequence of `addTagQueue` calls with non-negative tags, no non-empty tag occurs in two
slots of the queue, and the array is a run of empty slots followed by the non-empty tags
in recency order, from the one touched longest ago to the most recently touched (the
most recent `maxSize` of them once the queue is full). -/
theorem addTagQueue_keeps_recency_order (n : Nat) (ts : List Int) (hn : 1 ≤ n)
    (hts : ∀ t ∈ ts, 0 ≤ t) :
    (∀ (i j : Nat) (x : Int), (addTags (newQueue n) ts).array[i]? = some x →
        (addTags (newQueue n) ts).array[j]? = some x → x ≠ -1 → i = j)
      ∧ (addTags (newQueue n) ts).array
          = List.replicate (n - (recencyOrder [] ts).length) (-1)
              ++ (recencyOrder [] ts).drop ((recencyOrder [] ts).length - n)
      ∧ (recencyOrder [] ts).Nodup ∧ (∀ x ∈ recencyOrder [] ts, x ≠ -1) := by
  obtain ⟨_, h, hnd, hne⟩ := addTags_holdsRecent n hn ts (newQueue n) [] rfl
    (holdsRecent_newQueue n) List.nodup_nil (by simp) hts
  exact ⟨fun i j x hi hj hx => holdsRecent_no_duplicate n _ _ h hnd i j x hi hj hx,
    holdsRecent_drop n _ _ h, hnd, hne⟩

theorem addTagQueue_keeps_recency_order_witness :
    (∀ (i j : Nat) (x : Int), (addTags (newQueue 2) [5, 7, 5, 9]).array[i]? = some x →
        (addTags (newQueue 2) [5, 7, 5, 9]).array[j]? = some x → x ≠ -1 → i = j)
      ∧ (addTags (newQueue 2) [5, 7, 5, 9]).array
          = List.replicate (2 - (recencyOrder [] [5, 7, 5, 9]).length) (-1)
              ++ (recencyOrder [] [5, 7, 5, 9]).drop ((recencyOrder [] [5, 7, 5, 9]).length - 2)
      ∧ (recencyOrder [] [5, 7, 5, 9]).Nodup ∧ (∀ x ∈ recencyOrder [] [5, 7, 5, 9], x ≠ -1) :=
  addTagQueue_keeps_recency_order 2 [5, 7, 5, 9] (by decide) (by decide)

/-! ## The LRU queues of the configured program -/

theorem length_le_of_nodup_bounded (T : List Int) (hnd : T.Nodup)
    (hb : ∀ x ∈ T, 0 ≤ x ∧ x ≤ 64) : T.length ≤ 65 := by
  have hsub : T.toFinset ⊆ Finset.Icc (0 : Int) 64 := by
    intro x hx
    rw [List.mem_toFinset] at hx
    rw [Finset.mem_Icc]
    exact hb x hx
  have hcard := Finset.card_le_card hsub
  rw [List.toFinset_card_of_nodup hnd, Int.card_Icc] at hcard
  simpa using hcard

theorem queueBounded_front (queue : Queue) (h : QueueBounded queue) :
    queue.array[0]? = some (-1) := by
  obtain ⟨_, T, ⟨P, Q, m, hT, harr, hsum, _⟩, hnd, hb⟩ := h
  have hlen := length_le_of_nodup_bounded T hnd hb
  subst hT
  rw [List.length_append] at hlen
  obtain ⟨m', rfl⟩ : ∃ m', m = m' + 1 := ⟨m - 1, by omega⟩
  rw [harr, List.replicate_succ, List.cons_append, List.getElem?_cons_zero]

theorem addTagQueue_bounded (queue : Queue) (tag : Int) (h : QueueBounded queue)
    (h0 : 0 ≤ tag) (h64 : tag ≤ 64) :
    (addTagQueue queue tag).1 = -1 ∧ QueueBounded (addTagQueue queue tag).2 := by
  have hfront := queueBounded_front queue h
  obtain ⟨hmax, T, hrec, hnd, hb⟩ := h
  constructor
  · unfold addTagQueue
    simp only
    rw [if_pos]
    rw [List.getD_eq_getElem?_getD, hfront]
    rfl
  · refine ⟨by rw [addTagQueue_maxSize, hmax], T.erase tag ++ [tag], ?_, nodup_touch T tag hnd, ?_⟩
    · rw [addTagQueue_array queue tag (by omega) (by rw [holdsRecent_length 128 _ _ hrec, hmax])]
      exact holdsRecent_step 128 queue.array T tag (by norm_num) hnd (by omega) hrec
    · intro x hx
      rcases List.mem_append.1 hx with h' | h'
      · exact hb x (List.mem_of_mem_erase h')
      · rw [List.mem_singleton] at h'
        omega

theorem getEvictedTagLRU_bounded (lru : LRU) (set tag : Int) (r : Int × LRU)
    (h : LruBounded lru) (h0 : 0 ≤ tag) (h64 : tag ≤ 64)
    (hr : getEvictedTagLRU lru set tag = Except.ok r) : r.1 = -1 ∧ LruBounded r.2 := by
  unfold getEvictedTagLRU at hr
  cases hq : atIndex lru.queues set with
  | none => rw [hq] at hr; cases hr
  | some queue =>
    rw [hq] at hr
    simp only at hr
    split at hr
    · cases hr
    · cases hr
      have hmem : queue ∈ lru.queues := by
        unfold atIndex at hq
        split at hq
        · obtain ⟨hlt, heq⟩ := List.getElem?_eq_some.1 hq
          rw [← heq]
          exact List.getElem_mem _
        · cases hq
      obtain ⟨h1, h2⟩ := addTagQueue_bounded queue tag (h queue hmem) h0 h64
      refine ⟨h1, ?_⟩
      intro q hq'
      rcases List.mem_or_eq_of_mem_set hq' with h' | h'
      · exact h q h'
      · rw [h']; exact h2

theorem lruBounded_front (lru : LRU) (h : LruBounded lru) :
    ∀ q ∈ lru.queues, q.array[0]? = some (-1) :=
  fun q hq => queueBounded_front q (h q hq)

theorem newLRU_bounded (numQueues : Nat) : LruBounded (newLRU numQueues) := by
  intro q hq
  have : q = newQueue 128 := List.eq_of_mem_replicate hq
  subst this
  exact ⟨rfl, [], holdsRecent_newQueue 128, List.nodup_nil, by simp⟩

/-! ## Steps of a read -/

theorem validate_address_ok (a : Nat) (h : validate_address a = Except.ok ()) :
    a % 4 = 0 ∧ a ≤ 65536 := by
  unfold validate_address at h
  split at h
  · cases h
  · rename_i hn
    have h4 : WORD_SIZE_BYTES = 4 := rfl
    have hM : MEMORY_SIZE = 65536 := rfl
    rw [h4, hM] at hn
    omega

theorem sameGeometry_fields (cache : Cache) (h : SameGeometry cache) :
    cache.associativity = 2 ∧ cache.numBlocks = 16 ∧ cache.tag_length = 22
      ∧ cache.index_length = 2 ∧ cache.block_offset_length = 8 := by
  obtain ⟨blocks, rfl⟩ := h
  exact ⟨rfl, rfl, newCache_tag_length, newCache_index_length, newCache_block_offset_length⟩

theorem calculateTag_eq (cache : Cache) (a : Nat) (h : SameGeometry cache) :
    calculateTag cache a = a / 1024 % 2 ^ 22 := by
  obtain ⟨_, _, h1, h2, h3⟩ := sameGeometry_fields cache h
  rw [calculateTag, extractInt_eq, h1, h2, h3]
  norm_num

theorem calculateBlockOffset_eq (cache : Cache) (a : Nat) (h : SameGeometry cache) :
    calculateBlockOffset cache a = a % 256 := by
  obtain ⟨_, _, h1, h2, h3⟩ := sameGeometry_fields cache h
  rw [calculateBlockOffset, extractInt_eq, h3]
  simp

theorem calculateTag_le (cache : Cache) (a : Nat) (h : SameGeometry cache) (ha : a ≤ 65536) :
    (0 : Int) ≤ (calculateTag cache a : Int) ∧ (calculateTag cache a : Int) ≤ 64 := by
  rw [calculateTag_eq cache a h]
  have : a / 1024 % 2 ^ 22 ≤ 64 := by
    have := Nat.mod_le (a / 1024) (2 ^ 22)
    omega
  omega

/-- The steps of `pass_word_to_cache` in the two-way associative cache. -/
theorem pass_word_to_cache_steps (address : Nat) (memory : Array Int) (cache : Cache)
    (lru : LRU) (p : Cache × LRU) (hassoc : cache.associativity = 2)
    (h : pass_word_to_cache address memory cache lru = Except.ok p) :
    ∃ r k cache',
      getEvictedTagLRU lru ((address % (cache.numBlocks / 2) : Nat) : Int)
          (calculateTag cache address) = Except.ok r
      ∧ (if r.1 ≠ -1 then
            findEvictedLoop ASSOCIATIVITY (address % (cache.numBlocks / 2) * ASSOCIATIVITY)
              cache r.1 none
          else
            findEmptyLoop ASSOCIATIVITY (address % (cache.numBlocks / 2) * ASSOCIATIVITY)
              cache (calculateBlockOffset cache address)) = Except.ok (some k)
      ∧ installBlock cache k address memory = Except.ok cache'
      ∧ p = (cache', r.2) := by
  unfold pass_word_to_cache at h
  rw [if_neg (by omega), if_pos (by omega)] at h
  simp only [hassoc] at h
  split at h
  · cases h
  · rename_i r hr
    split at h
    · cases h
    · cases h
    · rename_i k hsearch
      split at h
      · cases h
      · rename_i c' hinst
        cases h
        exact ⟨r, k, c', hr, hsearch, hinst, rfl⟩

/-- The steps of a `read_word` that returns, in the two-way associative cache of 16
blocks. -/
theorem read_word_steps (s s' : State) (address : Nat)
    (hassoc : s.cache.associativity = 2) (hnb : s.cache.numBlocks = 16)
    (h : read_word address s = Except.ok s') :
    validate_address address = Except.ok ()
      ∧ ∃ r hit,
        getEvictedTagLRU s.lru ((address % 8 : Nat) : Int) (calculateTag s.cache address)
            = Except.ok r
        ∧ checkSetLoop 2 0 s.cache ((address % 8 : Nat) : Int) (calculateTag s.cache address)
            = Except.ok hit
        ∧ check_cache address s.cache s.lru = Except.ok (hit, r.2)
        ∧ ((hit = WORD_MISS ∧ ∃ p, pass_word_to_cache address s.memory s.cache r.2 = Except.ok p
              ∧ s' = { s with cache := p.1, lru := p.2 })
            ∨ (hit ≠ WORD_MISS ∧ s' = { s with lru := r.2 })) := by
  unfold read_word at h
  split at h
  · cases h
  · rename_i u hval
    refine ⟨hval, ?_⟩
    split at h
    · cases h
    · rename_i r hcc
      have hcc' := hcc
      rw [check_cache_eq _ _ _ hassoc hnb] at hcc
      split at hcc
      · cases hcc
      · rename_i r0 hr0
        split at hcc
        · cases hcc
        · rename_i hit hscan
          cases hcc
          refine ⟨r0, hit, hr0, hscan, hcc', ?_⟩
          simp only at h
          split at h
          · rename_i hmiss
            left
            split at h
            · cases h
            · rename_i p hp
              cases h
              exact ⟨hmiss, p, hp, rfl⟩
          · rename_i hmiss
            right
            cases h
            exact ⟨hmiss, rfl⟩

theorem installBlock_geometry (cache cache' : Cache) (k address : Nat) (memory : Array Int)
    (hg : SameGeometry cache) (h : installBlock cache k address memory = Except.ok cache') :
    SameGeometry cache' := by
  obtain ⟨_, b, hc, _⟩ := installBlock_spec _ _ _ _ _ h
  obtain ⟨blocks, rfl⟩ := hg
  exact ⟨_, hc⟩

theorem getEvictedTagLRU_returns (lru : LRU) (d : Nat) (tag : Int)
    (hs : queueSizes lru = List.replicate 8 128) (hd : d < 8) :
    ∃ r, getEvictedTagLRU lru (d : Int) tag = Except.ok r := by
  rw [getEvictedTagLRU_ok_iff, hs, atIndex_natCast, List.getElem?_replicate, if_pos hd]
  exact ⟨128, rfl, by omega⟩

/-- Reads keep the geometry of the cache, the memory, the number and capacity of the LRU
queues and the bound on their contents. -/
theorem reachable_invariant (s : State) (h : Reachable s) :
    SameGeometry s.cache ∧ s.memory = initialize_memory ∧ LruBounded s.lru
      ∧ queueSizes s.lru = List.replicate 8 128 := by
  induction h with
  | init =>
    refine ⟨⟨newCache.blocks, ?_⟩, ?_, newLRU_bounded _, by decide⟩
    · simp only [initialState]
    · simp only [initialState]
  | read s s' address _ hread ih =>
    obtain ⟨hg, hmem, hlru, hsz⟩ := ih
    obtain ⟨hassoc, hnb, _⟩ := sameGeometry_fields _ hg
    obtain ⟨hval, r, hit, hr, _, _, hcase⟩ := read_word_steps s s' address hassoc hnb hread
    obtain ⟨_, hle⟩ := validate_address_ok _ hval
    obtain ⟨ht0, ht64⟩ := calculateTag_le s.cache address hg hle
    obtain ⟨_, hb1⟩ := getEvictedTagLRU_bounded _ _ _ _ hlru ht0 ht64 hr
    have hsz1 := getEvictedTagLRU_sizes _ _ _ _ hr
    rcases hcase with ⟨_, p, hp, rfl⟩ | ⟨_, rfl⟩
    · obtain ⟨r1, k, c', hr1, _, hinst, rfl⟩ := pass_word_to_cache_steps _ _ _ _ _ hassoc hp
      obtain ⟨_, hb2⟩ := getEvictedTagLRU_bounded _ _ _ _ hb1 ht0 ht64 hr1
      have hsz2 := getEvictedTagLRU_sizes _ _ _ _ hr1
      exact ⟨installBlock_geometry _ _ _ _ _ hg hinst, hmem, hb2, by rw [hsz2, hsz1, hsz]⟩
    · exact ⟨hg, hmem, hb1, by rw [hsz1, hsz]⟩

/-- C19. In the configured program, in every state reached by reads and for every
address accepted by `validate_address`, the front slot of every LRU queue is the empty
marker `-1`; the call of `getEvictedTagLRU` made by `check_cache` returns `-1` and leaves
every front slot `-1`, and so does the call made after it by `pass_word_to_cache`: no
eviction is reported. -/
theorem lru_front_slot_stays_empty (s : State) (a : Nat) (hreach : Reachable s)
    (hvalid : validate_address a = Except.ok ()) :
    (∀ q ∈ s.lru.queues, q.array[0]? = some (-1))
      ∧ ∃ r r',
        getEvictedTagLRU s.lru
            (toChar ((a % (s.cache.numBlocks / s.cache.associativity) : Nat) : Int))
            (calculateTag s.cache a) = Except.ok r
        ∧ r.1 = -1 ∧ (∀ q ∈ r.2.queues, q.array[0]? = some (-1))
        ∧ getEvictedTagLRU r.2 ((a % (s.cache.numBlocks / s.cache.associativity) : Nat) : Int)
            (calculateTag s.cache a) = Except.ok r'
        ∧ r'.1 = -1 ∧ (∀ q ∈ r'.2.queues, q.array[0]? = some (-1)) := by
  obtain ⟨hg, _, hlru, hsz⟩ := reachable_invariant s hreach
  obtain ⟨hassoc, hnb, _⟩ := sameGeometry_fields _ hg
  obtain ⟨_, hle⟩ := validate_address_ok _ hvalid
  obtain ⟨ht0, ht64⟩ := calculateTag_le s.cache a hg hle
  have hd : a % 8 < 8 := Nat.mod_lt _ (by norm_num)
  rw [hassoc, hnb, show (16 : Nat) / 2 = 8 from rfl, toChar_natCast _ (by omega)]
  obtain ⟨r, hr⟩ := getEvictedTagLRU_returns s.lru (a % 8) (calculateTag s.cache a) hsz hd
  obtain ⟨h1, hb1⟩ := getEvictedTagLRU_bounded _ _ _ _ hlru ht0 ht64 hr
  obtain ⟨r', hr'⟩ := getEvictedTagLRU_returns r.2 (a % 8) (calculateTag s.cache a)
    (by rw [getEvictedTagLRU_sizes _ _ _ _ hr, hsz]) hd
  obtain ⟨h2, hb2⟩ := getEvictedTagLRU_bounded _ _ _ _ hb1 ht0 ht64 hr'
  exact ⟨lruBounded_front _ hlru, r, r', hr, h1, lruBounded_front _ hb1, hr', h2,
    lruBounded_front _ hb2⟩

theorem lru_front_slot_stays_empty_witness :
    (∀ q ∈ initialState.lru.queues, q.array[0]? = some (-1))
      ∧ ∃ r r',
        getEvictedTagLRU initialState.lru
            (toChar ((4 % (initialState.cache.numBlocks / initialState.cache.associativity)
              : Nat) : Int))
            (calculateTag initialState.cache 4) = Except.ok r
        ∧ r.1 = -1 ∧ (∀ q ∈ r.2.queues, q.array[0]? = some (-1))
        ∧ getEvictedTagLRU r.2
            ((4 % (initialState.cache.numBlocks / initialState.cache.associativity) : Nat) : Int)
            (calculateTag initialState.cache 4) = Except.ok r'
        ∧ r'.1 = -1 ∧ (∀ q ∈ r'.2.queues, q.array[0]? = some (-1)) :=
  lru_front_slot_stays_empty initialState 4 Reachable.init (by rfl)

/-! ## Evaluations on the LRU and on out-of-range offsets -/

/-- C11, evaluated on the code. After the calls of `getEvictedTagLRU` on set `0` with the
tags `0, 1, 2`, the queue of the set, whose capacity is
`CACHE_BLOCK_SIZE * ASSOCIATIVITY = 128`, holds the three distinct non-empty tags
`0, 1, 2`: more than the associativity, `2`. -/
theorem lru_queue_holds_three_tags :
    Except.map (fun p => ((p.2.queues.getD 0 (newQueue 0)).array.filter
          (fun t => decide (t ≠ -1)), (p.2.queues.getD 0 (newQueue 0)).maxSize))
        (touchTags (newLRU ((CACHE_SIZE / CACHE_BLOCK_SIZE) / ASSOCIATIVITY)) 0 [0, 1, 2])
      = Except.ok ([0, 1, 2], 128)
      ∧ ([0, 1, 2] : List Int).Nodup ∧ ASSOCIATIVITY = 2 := by
  refine ⟨by rfl, by decide, by rfl⟩

/-- C12, evaluated on the code. The set `0` is touched with the two distinct tags `0` and
`1` and then with the further tag `2`: all three calls of `getEvictedTagLRU` return the
empty marker `-1`; the least recently touched tag `0` is not returned. -/
theorem lru_third_tag_evicts_nothing :
    Except.map Prod.fst
        (touchTags (newLRU ((CACHE_SIZE / CACHE_BLOCK_SIZE) / ASSOCIATIVITY)) 0 [0, 1, 2])
      = Except.ok [-1, -1, -1] := by
  rfl

/-- C18, evaluated on the code. The address `17536`, the first one read by
`run_simulation`, is accepted by `validate_address`; its block offset in the cache built
by `newCache` is `128`, so `block_offset + WORD_SIZE_BYTES` exceeds `CACHE_BLOCK_SIZE` and
`read_word` indexes `byte_array` outside its 64 bytes. -/
theorem block_offset_exceeds_block_size :
    validate_address 17536 = Except.ok ()
      ∧ calculateBlockOffset newCache 17536 = 128
      ∧ ¬ calculateBlockOffset newCache 17536 + WORD_SIZE_BYTES ≤ CACHE_BLOCK_SIZE
      ∧ read_word 17536 initialState = Except.error Fault.outOfBounds := by
  refine ⟨by rfl, by rfl, by decide, by rfl⟩

/-! ## Installing a word -/

theorem fillWordLoop_four (off address : Nat) (memory : Array Int) (b : Block)
    (ha : address + 3 < 65536) (hoff : off + 3 < b.byte_array.length) :
    fillWordLoop WORD_SIZE_BYTES 0 off address memory b
      = Except.ok { b with
          byte_array :=
            (((b.byte_array.set off (memory.getD address 0)).set (off + 1)
              (memory.getD (address + 1) 0)).set (off + 2) (memory.getD (address + 2) 0)).set
                (off + 3) (memory.getD (address + 3) 0) } := by
  have hM : MEMORY_SIZE = 65536 := rfl
  have e0 : (address + 0) % 2 ^ 32 = address := by omega
  have e1 : (address + (0 + 1)) % 2 ^ 32 = address + 1 := by omega
  have e2 : (address + (0 + 1 + 1)) % 2 ^ 32 = address + 2 := by omega
  have e3 : (address + (0 + 1 + 1 + 1)) % 2 ^ 32 = address + 3 := by omega
  rw [show WORD_SIZE_BYTES = 4 from rfl]
  rw [fillWordLoop, e0, if_pos ⟨by omega, by omega⟩]
  rw [fillWordLoop, e1, if_pos ⟨by omega, by simp only [List.length_set]; omega⟩]
  rw [fillWordLoop, e2, if_pos ⟨by omega, by simp only [List.length_set]; omega⟩]
  rw [fillWordLoop, e3, if_pos ⟨by omega, by simp only [List.length_set]; omega⟩]
  rw [fillWordLoop]
  rfl

theorem wordIsZeroLoop_four (b : Block) (off : Nat) (hoff : off + 3 < b.byte_array.length) :
    wordIsZeroLoop WORD_SIZE_BYTES 0 b off = Except.ok (decide (WordZero b off)) := by
  rw [show WORD_SIZE_BYTES = 4 from rfl]
  unfold WordZero
  have g0 : b.byte_array[off + 0]? = some (b.byte_array.getD off 0) := by
    rw [List.getD_eq_getElem?_getD, Nat.add_zero, List.getElem?_eq_getElem (by omega)]; rfl
  have g1 : b.byte_array[off + (0 + 1)]? = some (b.byte_array.getD (off + 1) 0) := by
    rw [List.getD_eq_getElem?_getD, List.getElem?_eq_getElem (by omega)]; rfl
  have g2 : b.byte_array[off + (0 + 1 + 1)]? = some (b.byte_array.getD (off + 2) 0) := by
    rw [List.getD_eq_getElem?_getD, List.getElem?_eq_getElem (by omega)]; rfl
  have g3 : b.byte_array[off + (0 + 1 + 1 + 1)]? = some (b.byte_array.getD (off + 3) 0) := by
    rw [List.getD_eq_getElem?_getD, List.getElem?_eq_getElem (by omega)]; rfl
  rw [wordIsZeroLoop, g0]
  simp only
  by_cases h0 : b.byte_array.getD off 0 = 0
  · rw [if_neg (not_not.2 h0), wordIsZeroLoop, g1]
    simp only
    by_cases h1 : b.byte_array.getD (off + 1) 0 = 0
    · rw [if_neg (not_not.2 h1), wordIsZeroLoop, g2]
      simp only
      by_cases h2 : b.byte_array.getD (off + 2) 0 = 0
      · rw [if_neg (not_not.2 h2), wordIsZeroLoop, g3]
        simp only
        by_cases h3 : b.byte_array.getD (off + 3) 0 = 0
        · rw [if_neg (not_not.2 h3), wordIsZeroLoop, decide_eq_true ⟨h0, h1, h2, h3⟩]
        · rw [if_pos h3, decide_eq_false (fun h => h3 h.2.2.2)]
      · rw [if_pos h2, decide_eq_false (fun h => h2 h.2.2.1)]
    · rw [if_pos h1, decide_eq_false (fun h => h1 h.2.1)]
  · rw [if_pos h0, decide_eq_false (fun h => h0 h.1)]

theorem findEmptyLoop_two (i off : Nat) (cache : Cache) (b0 b1 : Block)
    (h0 : cache.blocks[i]? = some b0) (h1 : cache.blocks[i + 1]? = some b1)
    (hl0 : off + 3 < b0.byte_array.length) (hl1 : off + 3 < b1.byte_array.length) :
    findEmptyLoop ASSOCIATIVITY i cache off
      = Except.ok (if WordZero b0 off then some i
          else if WordZero b1 off then some (i + 1) else none) := by
  rw [show ASSOCIATIVITY = 2 from rfl, findEmptyLoop, h0]
  simp only
  rw [wordIsZeroLoop_four b0 off hl0]
  by_cases z0 : WordZero b0 off
  · simp [z0]
  · simp only [z0, decide_False, if_false]
    rw [findEmptyLoop, h1]
    simp only
    rw [wordIsZeroLoop_four b1 off hl1]
    by_cases z1 : WordZero b1 off
    · simp [z1]
    · simp only [z1, decide_False, if_false]
      rw [findEmptyLoop]

theorem checkSetLoop_two (d : Nat) (cache : Cache) (tag : Int) (b0 b1 : Block)
    (hassoc : cache.associativity = 2)
    (h0 : cache.blocks[2 * d]? = some b0) (h1 : cache.blocks[2 * d + 1]? = some b1) :
    checkSetLoop 2 0 cache (d : Int) tag
      = Except.ok (if tag = b0.tag ∨ tag = b1.tag then WORD_HIT else WORD_MISS) := by
  have i0 : (cache.associativity : Int) * (d : Int) + ((0 : Nat) : Int)
      = ((2 * d : Nat) : Int) := by rw [hassoc]; push_cast; ring
  have i1 : (cache.associativity : Int) * (d : Int) + ((0 + 1 : Nat) : Int)
      = ((2 * d + 1 : Nat) : Int) := by rw [hassoc]; push_cast; ring
  rw [checkSetLoop, i0, atIndex_natCast, h0]
  simp only
  by_cases t0 : tag = b0.tag
  · simp [t0]
  · rw [if_neg t0, checkSetLoop, i1, atIndex_natCast, h1]
    simp only
    by_cases t1 : tag = b1.tag
    · simp [t1]
    · rw [if_neg t1, checkSetLoop]
      simp [t0, t1]

theorem installBlock_eq (cache : Cache) (k address : Nat) (memory : Array Int) (b : Block)
    (hb : cache.blocks[k]? = some b) (ha : address + 3 < 65536)
    (hoff : calculateBlockOffset cache address + 3 < b.byte_array.length) :
    installBlock cache k address memory
      = Except.ok { cache with
          blocks := cache.blocks.set k
            (installWord b (calculateTag cache address) (calculateBlockOffset cache address)
              address memory) } := by
  unfold installBlock
  rw [hb]
  simp only
  rw [fillWordLoop_four _ _ _ _ ha (by simpa using hoff)]
  rfl

theorem validate_address_of (a : Nat) (h4 : a % 4 = 0) (hlt : a < 65536) :
    validate_address a = Except.ok () := by
  unfold validate_address
  have hW : WORD_SIZE_BYTES = 4 := rfl
  have hM : MEMORY_SIZE = 65536 := rfl
  rw [if_neg (by rw [hW, hM]; omega)]

/-- The outcome of `pass_word_to_cache` when the LRU reports no eviction: the first of the
two blocks of the set whose word at the block offset is zero receives the word. -/
theorem pass_word_to_cache_eq (a : Nat) (memory : Array Int) (cache : Cache) (lru : LRU)
    (r : Int × LRU) (b0 b1 : Block) (hg : SameGeometry cache)
    (hr : getEvictedTagLRU lru ((a % 8 : Nat) : Int) (calculateTag cache a) = Except.ok r)
    (hret : r.1 = -1) (halt : a + 3 < 65536) (hoff : a % 256 + 3 < 64)
    (h0 : cache.blocks[2 * (a % 8)]? = some b0) (h1 : cache.blocks[2 * (a % 8) + 1]? = some b1)
    (hl0 : b0.byte_array.length = 64) (hl1 : b1.byte_array.length = 64) :
    pass_word_to_cache a memory cache lru
      = if WordZero b0 (a % 256) then
          Except.ok ({ cache with
            blocks := cache.blocks.set (2 * (a % 8))
              (installWord b0 (calculateTag cache a) (a % 256) a memory) }, r.2)
        else if WordZero b1 (a % 256) then
          Except.ok ({ cache with
            blocks := cache.blocks.set (2 * (a % 8) + 1)
              (installWord b1 (calculateTag cache a) (a % 256) a memory) }, r.2)
        else Except.error Fault.unassignedBlock := by
  obtain ⟨hassoc, hnb, _⟩ := sameGeometry_fields cache hg
  have hoffeq := calculateBlockOffset_eq cache a hg
  unfold pass_word_to_cache
  rw [if_neg (by omega), if_pos (by omega)]
  simp only [hassoc, hnb, show (16 : Nat) / 2 = 8 from rfl]
  rw [hr]
  simp only [hret, ne_eq, not_true_eq_false, if_false]
  have hidx : a % 8 * ASSOCIATIVITY = 2 * (a % 8) := by
    rw [show ASSOCIATIVITY = 2 from rfl]; omega
  rw [hidx, findEmptyLoop_two _ _ _ b0 b1 h0 h1 (by rw [hoffeq, hl0]; exact hoff)
    (by rw [hoffeq, hl1]; exact hoff), hoffeq]
  by_cases z0 : WordZero b0 (a % 256)
  · simp only [z0, if_true]
    rw [installBlock_eq _ _ _ _ b0 h0 halt (by rw [hoffeq, hl0]; exact hoff), hoffeq]
    simp only [hassoc, hnb]
  · by_cases z1 : WordZero b1 (a % 256)
    · simp only [z0, z1, if_true, if_false]
      rw [installBlock_eq _ _ _ _ b1 h1 halt (by rw [hoffeq, hl1]; exact hoff), hoffeq]
      simp only [hassoc, hnb]
    · simp only [z0, z1, if_false]

/-- The outcome of `read_word` on a miss, in a state reached by reads, for a valid address
whose block offset lies inside the block buffer. -/
theorem read_word_miss (s : State) (a : Nat) (b0 b1 : Block) (hreach : Reachable s)
    (h4 : a % 4 = 0) (hlt : a < 65536) (hoff : a % 256 < 64)
    (h0 : s.cache.blocks[2 * (a % 8)]? = some b0)
    (h1 : s.cache.blocks[2 * (a % 8) + 1]? = some b1)
    (hl0 : b0.byte_array.length = 64) (hl1 : b1.byte_array.length = 64)
    (ht0 : ((a / 1024 : Nat) : Int) ≠ b0.tag) (ht1 : ((a / 1024 : Nat) : Int) ≠ b1.tag) :
    ∃ lru1 lru2, check_cache a s.cache s.lru = Except.ok (WORD_MISS, lru1)
      ∧ read_word a s
        = if WordZero b0 (a % 256) then
            Except.ok (withBlock s (2 * (a % 8))
              (installWord b0 ((a / 1024 : Nat) : Int) (a % 256) a s.memory) lru2)
          else if WordZero b1 (a % 256) then
            Except.ok (withBlock s (2 * (a % 8) + 1)
              (installWord b1 ((a / 1024 : Nat) : Int) (a % 256) a s.memory) lru2)
          else Except.error Fault.unassignedBlock := by
  obtain ⟨hg, _, hlru, hsz⟩ := reachable_invariant s hreach
  obtain ⟨hassoc, hnb, _⟩ := sameGeometry_fields _ hg
  have htag : calculateTag s.cache a = a / 1024 := by
    rw [calculateTag_eq _ _ hg]
    omega
  obtain ⟨ht0', ht64⟩ := calculateTag_le s.cache a hg (by omega)
  have hd : a % 8 < 8 := Nat.mod_lt _ (by norm_num)
  obtain ⟨r, hr⟩ := getEvictedTagLRU_returns s.lru (a % 8) (calculateTag s.cache a) hsz hd
  obtain ⟨_, hb1⟩ := getEvictedTagLRU_bounded _ _ _ _ hlru ht0' ht64 hr
  obtain ⟨r', hr'⟩ := getEvictedTagLRU_returns r.2 (a % 8) (calculateTag s.cache a)
    (by rw [getEvictedTagLRU_sizes _ _ _ _ hr, hsz]) hd
  obtain ⟨hret, _⟩ := getEvictedTagLRU_bounded _ _ _ _ hb1 ht0' ht64 hr'
  have hscan := checkSetLoop_two (a % 8) s.cache (calculateTag s.cache a) b0 b1 hassoc h0 h1
  rw [htag, if_neg (by rintro (h | h); exact ht0 h; exact ht1 h)] at hscan
  have hcc : check_cache a s.cache s.lru = Except.ok (WORD_MISS, r.2) := by
    rw [check_cache_eq _ _ _ hassoc hnb, hr]
    simp only
    rw [htag, hscan]
  have hoff3 : a % 256 + 3 < 64 := by omega
  have hpass := pass_word_to_cache_eq a s.memory s.cache r.2 r' b0 b1 hg hr' hret (by omega)
    hoff3 h0 h1 hl0 hl1
  rw [htag] at hpass
  refine ⟨r.2, r'.2, hcc, ?_⟩
  unfold read_word
  rw [validate_address_of a h4 hlt]
  simp only
  rw [hcc]
  simp only [if_true]
  rw [hpass]
  by_cases z0 : WordZero b0 (a % 256)
  · simp only [z0, if_true, withBlock]
  · by_cases z1 : WordZero b1 (a % 256)
    · simp only [z0, z1, if_true, if_false, withBlock]
    · simp only [z0, z1, if_false]

/-! ## Reads from the initial state -/

theorem set_four_getElem? (bytes : List Int) (off k : Nat) (m0 m1 m2 m3 : Int)
    (hoff : off + 3 < bytes.length) :
    ((((bytes.set off m0).set (off + 1) m1).set (off + 2) m2).set (off + 3) m3)[k]?
      = if k = off then some m0 else if k = off + 1 then some m1
        else if k = off + 2 then some m2 else if k = off + 3 then some m3 else bytes[k]? := by
  simp only [List.getElem?_set, List.length_set]
  by_cases h3 : off + 3 = k
  · subst h3
    rw [if_pos rfl, if_pos hoff, if_neg (by omega), if_neg (by omega), if_neg (by omega),
      if_pos rfl]
  · rw [if_neg h3]
    by_cases h2 : off + 2 = k
    · subst h2
      rw [if_pos rfl, if_pos (by omega), if_neg (by omega), if_neg (by omega), if_pos rfl]
    · rw [if_neg h2]
      by_cases h1 : off + 1 = k
      · subst h1
        rw [if_pos rfl, if_pos (by omega), if_neg (by omega), if_pos rfl]
      · rw [if_neg h1]
        by_cases h0 : off = k
        · subst h0
          rw [if_pos rfl, if_pos (by omega), if_pos rfl]
        · rw [if_neg h0, if_neg (fun e => h0 e.symm), if_neg (fun e => h1 e.symm),
            if_neg (fun e => h2 e.symm), if_neg (fun e => h3 e.symm)]

/-- The bytes of a block after a word has been installed in it. -/
theorem installWord_bytes (b : Block) (tag : Int) (off address : Nat) (memory : Array Int)
    (hoff : off + 3 < b.byte_array.length) :
    (∀ j, j < 4 →
        (installWord b tag off address memory).byte_array[off + j]?
          = some (memory.getD (address + j) 0))
      ∧ ∀ k, (k < off ∨ off + 4 ≤ k) →
        (installWord b tag off address memory).byte_array[k]? = b.byte_array[k]? := by
  unfold installWord
  simp only
  constructor
  · intro j hj
    rw [set_four_getElem? _ _ _ _ _ _ _ hoff]
    interval_cases j
    · rw [if_pos (by omega)]; rfl
    · rw [if_neg (by omega), if_pos rfl]
    · rw [if_neg (by omega), if_neg (by omega), if_pos rfl]
    · rw [if_neg (by omega), if_neg (by omega), if_neg (by omega), if_pos rfl]
  · intro k hk
    rw [set_four_getElem? _ _ _ _ _ _ _ hoff, if_neg (by omega), if_neg (by omega),
      if_neg (by omega), if_neg (by omega)]

theorem wordZero_newBlock (off : Nat) : WordZero newBlock off := by
  have h : ∀ k, newBlock.byte_array.getD k 0 = 0 := by
    intro k
    rw [List.getD_eq_getElem?_getD]
    simp only [newBlock, List.getElem?_replicate]
    split <;> rfl
  exact ⟨h _, h _, h _, h _⟩

theorem newBlock_length : newBlock.byte_array.length = 64 := by
  simp [newBlock, CACHE_BLOCK_SIZE]

theorem initialState_blocks (k : Nat) (hk : k < 16) :
    initialState.cache.blocks[k]? = some newBlock := by
  have : initialState.cache.blocks = List.replicate 16 newBlock := rfl
  rw [this, List.getElem?_replicate, if_pos hk]

/-- A read of a valid address with block offset inside the buffer, from the initial
state: a miss that installs the word in the first block of the set `a % 8`. -/
theorem read_word_initial (a : Nat) (h4 : a % 4 = 0) (hlt : a < 65536) (hoff : a % 256 < 64) :
    ∃ lru1 lru2, check_cache a initialState.cache initialState.lru = Except.ok (WORD_MISS, lru1)
      ∧ read_word a initialState
        = Except.ok (withBlock initialState (2 * (a % 8))
            (installWord newBlock ((a / 1024 : Nat) : Int) (a % 256) a initialize_memory) lru2) := by
  have hd : a % 8 < 8 := Nat.mod_lt _ (by norm_num)
  have hne : ((a / 1024 : Nat) : Int) ≠ newBlock.tag := by
    have : newBlock.tag = -1 := rfl
    rw [this]
    omega
  obtain ⟨lru1, lru2, hcc, hread⟩ := read_word_miss initialState a newBlock newBlock
    Reachable.init h4 hlt hoff (initialState_blocks _ (by omega))
    (initialState_blocks _ (by omega)) newBlock_length newBlock_length hne hne
  have hm : initialState.memory = initialize_memory := by simp only [initialState]
  rw [if_pos (wordZero_newBlock _), hm] at hread
  exact ⟨lru1, lru2, hcc, hread⟩

/-! ## The installed block -/

theorem withBlock_blocks_self (s : State) (k : Nat) (b : Block) (lru : LRU)
    (hk : k < s.cache.blocks.length) : (withBlock s k b lru).cache.blocks[k]? = some b := by
  simp only [withBlock]
  rw [List.getElem?_set_self hk]

theorem withBlock_blocks_ne (s : State) (k k' : Nat) (b : Block) (lru : LRU) (hk : k ≠ k') :
    (withBlock s k b lru).cache.blocks[k']? = s.cache.blocks[k']? := by
  simp only [withBlock]
  rw [List.getElem?_set_ne hk]

theorem installWord_length (b : Block) (tag : Int) (off address : Nat) (memory : Array Int) :
    (installWord b tag off address memory).byte_array.length = b.byte_array.length := by
  simp [installWord]

theorem installWord_not_zero (b : Block) (tag : Int) (off address : Nat) (memory : Array Int)
    (hoff : off + 3 < b.byte_array.length) (hne : memory.getD address 0 ≠ 0) :
    ¬ WordZero (installWord b tag off address memory) off := by
  intro hz
  have h := (installWord_bytes b tag off address memory hoff).1 0 (by norm_num)
  rw [Nat.add_zero, Nat.add_zero] at h
  have h0 := hz.1
  rw [List.getD_eq_getElem?_getD, h] at h0
  exact hne h0

theorem initialState_blocks_length : initialState.cache.blocks.length = 16 := by
  have : initialState.cache.blocks = List.replicate 16 newBlock := rfl
  rw [this, List.length_replicate]

theorem initialState_memory : initialState.memory = initialize_memory := by
  simp only [initialState]

/-- C13 (amended). For every valid address `a` whose block offset lies inside the 64-byte
buffer, a read of `a` from the initial state is a miss that returns; the installed block,
the first block of the set `a % 8`, has the tag of `a` and holds the word at `a`:
`byte_array[k] = memory[(a - a % 64) + k]` for the four `k` from `a % 64` on, and every
other byte of the block is zero. -/
theorem read_miss_installs_word (a : Nat) (halign : a % WORD_SIZE_BYTES = 0)
    (hlt : a < MEMORY_SIZE)
    (hoff : calculateBlockOffset newCache a + WORD_SIZE_BYTES ≤ CACHE_BLOCK_SIZE) :
    ∃ s' lru1 blk,
      check_cache a initialState.cache initialState.lru = Except.ok (WORD_MISS, lru1)
      ∧ read_word a initialState = Except.ok s'
      ∧ s'.cache.blocks[2 * (a % 8)]? = some blk
      ∧ blk.tag = (calculateTag newCache a : Int)
      ∧ (∀ k, a % 64 ≤ k → k < a % 64 + 4 →
          blk.byte_array[k]? = some (initialState.memory.getD ((a - a % 64) + k) 0))
      ∧ (∀ k, k < 64 → (k < a % 64 ∨ a % 64 + 4 ≤ k) → blk.byte_array[k]? = some 0) := by
  have h4 : a % 4 = 0 := halign
  have hlt' : a < 65536 := hlt
  have hg : SameGeometry newCache := ⟨newCache.blocks, rfl⟩
  rw [calculateBlockOffset_eq newCache a hg] at hoff
  have hoff' : a % 256 + 4 ≤ 64 := hoff
  have h64 : a % 256 = a % 64 := by omega
  have htag : calculateTag newCache a = a / 1024 := by
    rw [calculateTag_eq _ _ hg]; omega
  obtain ⟨lru1, lru2, hcc, hread⟩ := read_word_initial a h4 hlt' (by omega)
  have hd : a % 8 < 8 := Nat.mod_lt _ (by norm_num)
  obtain ⟨hb1, hb2⟩ := installWord_bytes newBlock ((a / 1024 : Nat) : Int) (a % 256) a
    initialize_memory (by rw [newBlock_length]; omega)
  refine ⟨_, lru1, _, hcc, hread,
    withBlock_blocks_self _ _ _ _ (by rw [initialState_blocks_length]; omega), ?_, ?_, ?_⟩
  · rw [htag]; rfl
  · intro k hk1 hk2
    have hj := hb1 (k - a % 64) (by omega)
    have e1 : a % 256 + (k - a % 64) = k := by omega
    have e2 : a + (k - a % 64) = a - a % 64 + k := by omega
    rw [e1, e2] at hj
    rw [hj, initialState_memory]
  · intro k hk hcase
    rw [hb2 k (by omega)]
    simp only [newBlock, List.getElem?_replicate]
    rw [if_pos (show k < CACHE_BLOCK_SIZE from hk)]

theorem read_miss_installs_word_witness :
    ∃ s' lru1 blk,
      check_cache 4 initialState.cache initialState.lru = Except.ok (WORD_MISS, lru1)
      ∧ read_word 4 initialState = Except.ok s'
      ∧ s'.cache.blocks[2 * (4 % 8)]? = some blk
      ∧ blk.tag = (calculateTag newCache 4 : Int)
      ∧ (∀ k, 4 % 64 ≤ k → k < 4 % 64 + 4 →
          blk.byte_array[k]? = some (initialState.memory.getD ((4 - 4 % 64) + k) 0))
      ∧ (∀ k, k < 64 → (k < 4 % 64 ∨ 4 % 64 + 4 ≤ k) → blk.byte_array[k]? = some 0) :=
  read_miss_installs_word 4 (by decide) (by decide) (by decide)

/-- C13 as stated fails at `a = 4`: the read from the initial state is a miss that
installs block `8`, whose byte `8` is zero, while the memory byte at
`(4 - 4 % 64) + 8 = 8` is `8`. -/
theorem read_miss_does_not_fill_block :
    ∃ s' lru1 blk,
      check_cache 4 initialState.cache initialState.lru = Except.ok (WORD_MISS, lru1)
      ∧ read_word 4 initialState = Except.ok s'
      ∧ s'.cache.blocks[8]? = some blk ∧ blk.tag = (calculateTag newCache 4 : Int)
      ∧ blk.byte_array[8]? = some 0
      ∧ initialState.memory.getD ((4 - 4 % 64) + 8) 0 = 8 := by
  obtain ⟨lru1, lru2, hcc, hread⟩ := read_word_initial 4 (by norm_num) (by norm_num)
    (by norm_num)
  obtain ⟨_, hb2⟩ := installWord_bytes newBlock ((4 / 1024 : Nat) : Int) (4 % 256) 4
    initialize_memory (by rw [newBlock_length]; norm_num)
  refine ⟨_, lru1, _, hcc, hread,
    withBlock_blocks_self _ _ _ _ (by rw [initialState_blocks_length]; norm_num), by rfl, ?_, ?_⟩
  · rw [hb2 8 (by norm_num)]
    simp only [newBlock, List.getElem?_replicate]
    rfl
  · rw [initialState_memory, initialize_memory_getD _ (by norm_num)]
    simp [initialByte, toChar]

/-! ## Victim selection -/

theorem withBlock_blocks_length (s : State) (k : Nat) (b : Block) (lru : LRU) :
    (withBlock s k b lru).cache.blocks.length = s.cache.blocks.length := by
  simp [withBlock]

theorem withBlock_memory (s : State) (k : Nat) (b : Block) (lru : LRU) :
    (withBlock s k b lru).memory = s.memory := rfl

theorem installWord_tag (b : Block) (tag : Int) (off address : Nat) (memory : Array Int) :
    (installWord b tag off address memory).tag = tag := rfl

/-- C15, evaluated on the code. The three valid addresses `4`, `1028` and `2052` fall in
the same set and have different tags. The reads of `4` and `1028` miss and fill the two
blocks of the set; the read of `2052` misses as well, the LRU reports no eviction, neither
block has four zero bytes at the block offset, and `block` is used unassigned. -/
theorem victim_search_leaves_block_unassigned :
    validate_address 4 = Except.ok () ∧ validate_address 1028 = Except.ok ()
      ∧ validate_address 2052 = Except.ok ()
      ∧ (∃ s2, readTrace [4, 1028] initialState = Except.ok s2
          ∧ read_word 2052 s2 = Except.error Fault.unassignedBlock)
      ∧ readTrace [4, 1028, 2052] initialState = Except.error Fault.unassignedBlock := by
  have m4 : initialize_memory.getD 4 0 ≠ 0 := by
    rw [initialize_memory_getD _ (by norm_num)]
    simp [initialByte, toChar]
  have m1028 : initialize_memory.getD 1028 0 ≠ 0 := by
    rw [initialize_memory_getD _ (by norm_num)]
    simp [initialByte, toChar]
  -- the read of 4
  obtain ⟨_, l1, _, hread1⟩ := read_word_initial 4 (by norm_num) (by norm_num) (by norm_num)
  norm_num at hread1
  generalize hs1 : withBlock initialState 8 (installWord newBlock 0 4 4 initialize_memory) l1
    = s1 at hread1
  have hreach1 : Reachable s1 := Reachable.read _ _ _ Reachable.init hread1
  have hmem1 : s1.memory = initialize_memory := by
    rw [← hs1, withBlock_memory, initialState_memory]
  have hlen1 : s1.cache.blocks.length = 16 := by
    rw [← hs1, withBlock_blocks_length, initialState_blocks_length]
  have hb8 : s1.cache.blocks[8]? = some (installWord newBlock 0 4 4 initialize_memory) := by
    rw [← hs1]
    exact withBlock_blocks_self _ _ _ _ (by rw [initialState_blocks_length]; norm_num)
  have hb9 : s1.cache.blocks[9]? = some newBlock := by
    rw [← hs1, withBlock_blocks_ne _ _ _ _ _ (by norm_num)]
    exact initialState_blocks 9 (by norm_num)
  have hz8 : ¬ WordZero (installWord newBlock 0 4 4 initialize_memory) 4 :=
    installWord_not_zero _ _ _ _ _ (by rw [newBlock_length]; norm_num) m4
  -- the read of 1028
  obtain ⟨_, l2, _, hread2⟩ := read_word_miss s1 1028
    (installWord newBlock 0 4 4 initialize_memory) newBlock hreach1 (by norm_num)
    (by norm_num) (by norm_num) hb8 hb9 (by rw [installWord_length, newBlock_length])
    newBlock_length (by rw [installWord_tag]; norm_num)
    (by rw [show newBlock.tag = -1 from rfl]; norm_num)
  norm_num at hread2
  rw [if_neg hz8, if_pos (wordZero_newBlock 4), hmem1] at hread2
  generalize hs2 : withBlock s1 9 (installWord newBlock 1 4 1028 initialize_memory) l2
    = s2 at hread2
  have hreach2 : Reachable s2 := Reachable.read _ _ _ hreach1 hread2
  have hb8' : s2.cache.blocks[8]? = some (installWord newBlock 0 4 4 initialize_memory) := by
    rw [← hs2, withBlock_blocks_ne _ _ _ _ _ (by norm_num)]
    exact hb8
  have hb9' : s2.cache.blocks[9]? = some (installWord newBlock 1 4 1028 initialize_memory) := by
    rw [← hs2]
    exact withBlock_blocks_self _ _ _ _ (by rw [hlen1]; norm_num)
  have hz9 : ¬ WordZero (installWord newBlock 1 4 1028 initialize_memory) 4 :=
    installWord_not_zero _ _ _ _ _ (by rw [newBlock_length]; norm_num) m1028
  -- the read of 2052
  obtain ⟨_, l3, _, hread3⟩ := read_word_miss s2 2052
    (installWord newBlock 0 4 4 initialize_memory)
    (installWord newBlock 1 4 1028 initialize_memory) hreach2 (by norm_num)
    (by norm_num) (by norm_num) hb8' hb9' (by rw [installWord_length, newBlock_length])
    (by rw [installWord_length, newBlock_length]) (by rw [installWord_tag]; norm_num)
    (by rw [installWord_tag]; norm_num)
  norm_num at hread3
  rw [if_neg hz8, if_neg hz9] at hread3
  have htrace2 : readTrace [4, 1028] initialState = Except.ok s2 := by
    rw [readTrace, hread1]
    simp only
    rw [readTrace, hread2]
    simp only
    rw [readTrace]
  refine ⟨by rfl, by rfl, by rfl, ⟨s2, htrace2, hread3⟩, ?_⟩
  rw [readTrace, hread1]
  simp only
  rw [readTrace, hread2]
  simp only
  rw [readTrace, hread3]

/-! ## Hits and block contents -/

theorem fillWordLoop_four_inv (off address : Nat) (memory : Array Int) (b b' : Block)
    (h : fillWordLoop WORD_SIZE_BYTES 0 off address memory b = Except.ok b') :
    off + 3 < b.byte_array.length ∧ (address + 3) % 2 ^ 32 < 65536
      ∧ b'.tag = b.tag
      ∧ b'.byte_array
          = (((b.byte_array.set off (memory.getD (address % 2 ^ 32) 0)).set (off + 1)
              (memory.getD ((address + 1) % 2 ^ 32) 0)).set (off + 2)
                (memory.getD ((address + 2) % 2 ^ 32) 0)).set (off + 3)
                  (memory.getD ((address + 3) % 2 ^ 32) 0) := by
  rw [show WORD_SIZE_BYTES = 4 from rfl, fillWordLoop] at h
  split at h
  · rename_i c0
    rw [fillWordLoop] at h
    split at h
    · rename_i c1
      rw [fillWordLoop] at h
      split at h
      · rename_i c2
        rw [fillWordLoop] at h
        split at h
        · rename_i c3
          rw [fillWordLoop] at h
          cases h
          simp only [List.length_set] at c0 c1 c2 c3
          have hM : MEMORY_SIZE = 65536 := rfl
          rw [hM] at c3
          exact ⟨by omega, by simpa using c3.1, rfl, rfl⟩
        · cases h
      · cases h
    · cases h
  · cases h

theorem checkSetLoop_two_inv (d : Nat) (cache : Cache) (tag hit : Int)
    (hassoc : cache.associativity = 2)
    (h : checkSetLoop 2 0 cache (d : Int) tag = Except.ok hit) (hmiss : hit = WORD_MISS) :
    ∃ b0 b1, cache.blocks[2 * d]? = some b0 ∧ cache.blocks[2 * d + 1]? = some b1
      ∧ tag ≠ b0.tag ∧ tag ≠ b1.tag := by
  have i0 : (cache.associativity : Int) * (d : Int) + ((0 : Nat) : Int)
      = ((2 * d : Nat) : Int) := by rw [hassoc]; push_cast; ring
  have i1 : (cache.associativity : Int) * (d : Int) + ((0 + 1 : Nat) : Int)
      = ((2 * d + 1 : Nat) : Int) := by rw [hassoc]; push_cast; ring
  subst hmiss
  rw [checkSetLoop, i0, atIndex_natCast] at h
  split at h
  · cases h
  · rename_i b0 hb0
    split at h
    · cases h
    · rename_i t0
      rw [checkSetLoop, i1, atIndex_natCast] at h
      split at h
      · cases h
      · rename_i b1 hb1
        split at h
        · cases h
        · rename_i t1
          exact ⟨b0, b1, hb0, hb1, t0, t1⟩

theorem check_cache_hit (s : State) (a : Nat) (b0 b1 : Block) (hreach : Reachable s)
    (h0 : s.cache.blocks[2 * (a % 8)]? = some b0)
    (h1 : s.cache.blocks[2 * (a % 8) + 1]? = some b1)
    (ht : (calculateTag s.cache a : Int) = b0.tag ∨ (calculateTag s.cache a : Int) = b1.tag) :
    ∃ lru', check_cache a s.cache s.lru = Except.ok (WORD_HIT, lru') := by
  obtain ⟨hg, _, hlru, hsz⟩ := reachable_invariant s hreach
  obtain ⟨hassoc, hnb, _⟩ := sameGeometry_fields _ hg
  obtain ⟨r, hr⟩ := getEvictedTagLRU_returns s.lru (a % 8) (calculateTag s.cache a) hsz
    (Nat.mod_lt _ (by norm_num))
  refine ⟨r.2, ?_⟩
  rw [check_cache_eq _ _ _ hassoc hnb, hr]
  simp only
  rw [checkSetLoop_two (a % 8) s.cache _ b0 b1 hassoc h0 h1, if_pos ht]

/-- The word installed by a miss. In every state reached by reads, when a read of `a` is
classified as a miss and returns, exactly one block of the set `a % 8` then has the tag of
`a`; the four bytes of that block at the block offset of `a` equal the memory bytes at
`a .. a+3`, and the lookup of `a` that follows is a hit. -/
theorem miss_then_hit_holds_word (s s' : State) (a : Nat) (lru1 : LRU) (hreach : Reachable s)
    (hmiss : check_cache a s.cache s.lru = Except.ok (WORD_MISS, lru1))
    (hread : read_word a s = Except.ok s') :
    ∃ k blk lru', k < 2 ∧ s'.cache.blocks[2 * (a % 8) + k]? = some blk
      ∧ blk.tag = (calculateTag s'.cache a : Int)
      ∧ (∀ k' blk', k' < 2 → k' ≠ k → s'.cache.blocks[2 * (a % 8) + k']? = some blk' →
          blk'.tag ≠ (calculateTag s'.cache a : Int))
      ∧ (∀ j, j < 4 →
          blk.byte_array[calculateBlockOffset s'.cache a + j]? = some (s'.memory.getD (a + j) 0))
      ∧ check_cache a s'.cache s'.lru = Except.ok (WORD_HIT, lru') := by
  obtain ⟨hg, _, hlru, hsz⟩ := reachable_invariant s hreach
  obtain ⟨hassoc, hnb, _⟩ := sameGeometry_fields _ hg
  obtain ⟨⟨lru', hhit⟩, _, _⟩ := read_word_then_hit s s' a hassoc hnb hread
  obtain ⟨hval, r, hit, hr, hscan, hcc, hcase⟩ := read_word_steps s s' a hassoc hnb hread
  obtain ⟨_, hle⟩ := validate_address_ok _ hval
  obtain ⟨ht0, ht64⟩ := calculateTag_le s.cache a hg hle
  rw [hmiss] at hcc
  have hhitmiss : hit = WORD_MISS := by
    have := congrArg Prod.fst (Except.ok.inj hcc)
    exact this.symm
  rcases hcase with ⟨_, p, hp, hs'⟩ | ⟨hne, _⟩
  · obtain ⟨b0, b1, hb0, hb1, hn0, hn1⟩ := checkSetLoop_two_inv _ _ _ _ hassoc hscan hhitmiss
    obtain ⟨_, hbd1⟩ := getEvictedTagLRU_bounded _ _ _ _ hlru ht0 ht64 hr
    obtain ⟨r1, k, c', hr1, hsearch, hinst, hp'⟩ :=
      pass_word_to_cache_steps _ _ _ _ _ hassoc hp
    rw [hnb, show (16 : Nat) / 2 = 8 from rfl] at hr1 hsearch
    obtain ⟨hret, _⟩ := getEvictedTagLRU_bounded _ _ _ _ hbd1 ht0 ht64 hr1
    rw [if_neg (by rw [hret]; simp)] at hsearch
    have hk := findEmptyLoop_range _ _ _ _ _ hsearch
    rw [show ASSOCIATIVITY = 2 from rfl] at hk
    unfold installBlock at hinst
    split at hinst
    · cases hinst
    · rename_i b hb
      simp only at hinst
      split at hinst
      · cases hinst
      · rename_i b' hfill
        cases hinst
        obtain ⟨hoffb, ha3, htag', hbytes⟩ := fillWordLoop_four_inv _ _ _ _ _ hfill
        simp only at hoffb htag' hbytes
        have hklen : k < s.cache.blocks.length := by
          by_contra hcon
          rw [List.getElem?_eq_none (by omega)] at hb
          cases hb
        subst hp' hs'
        refine ⟨k - 2 * (a % 8), b', lru', by omega, ?_, htag', ?_, ?_, hhit⟩
        · have e : 2 * (a % 8) + (k - 2 * (a % 8)) = k := by omega
          rw [e]
          exact List.getElem?_set_self hklen
        · intro k' blk' hk'2 hk'ne hblk'
          simp only at hblk'
          rw [List.getElem?_set_ne (by omega)] at hblk'
          have hcase' : k' = 0 ∨ k' = 1 := by omega
          rcases hcase' with rfl | rfl
          · rw [Nat.add_zero, hb0] at hblk'
            cases hblk'
            exact fun e => hn0 e.symm
          · rw [hb1] at hblk'
            cases hblk'
            exact fun e => hn1 e.symm
        · intro j hj
          have e0 : a % 2 ^ 32 = a := by omega
          have e1 : (a + 1) % 2 ^ 32 = a + 1 := by omega
          have e2 : (a + 2) % 2 ^ 32 = a + 2 := by omega
          have e3 : (a + 3) % 2 ^ 32 = a + 3 := by omega
          rw [e0, e1, e2, e3] at hbytes
          have hoffeq : calculateBlockOffset
              { s.cache with blocks := s.cache.blocks.set k b' } a
                = calculateBlockOffset s.cache a := rfl
          simp only
          rw [hoffeq, hbytes, set_four_getElem? _ _ _ _ _ _ _ hoffb]
          interval_cases j
          · rw [if_pos (by omega)]; rfl
          · rw [if_neg (by omega), if_pos rfl]
          · rw [if_neg (by omega), if_neg (by omega), if_pos rfl]
          · rw [if_neg (by omega), if_neg (by omega), if_neg (by omega), if_pos rfl]
  · exact absurd hhitmiss hne

theorem miss_then_hit_holds_word_witness :
    ∃ s' lru1, check_cache 4 initialState.cache initialState.lru = Except.ok (WORD_MISS, lru1)
      ∧ read_word 4 initialState = Except.ok s'
      ∧ ∃ k blk lru', k < 2 ∧ s'.cache.blocks[2 * (4 % 8) + k]? = some blk
        ∧ blk.tag = (calculateTag s'.cache 4 : Int)
        ∧ (∀ k' blk', k' < 2 → k' ≠ k → s'.cache.blocks[2 * (4 % 8) + k']? = some blk' →
            blk'.tag ≠ (calculateTag s'.cache 4 : Int))
        ∧ (∀ j, j < 4 →
            blk.byte_array[calculateBlockOffset s'.cache 4 + j]?
              = some (s'.memory.getD (4 + j) 0))
        ∧ check_cache 4 s'.cache s'.lru = Except.ok (WORD_HIT, lru') := by
  obtain ⟨lru1, lru2, hcc, hread⟩ := read_word_initial 4 (by norm_num) (by norm_num)
    (by norm_num)
  exact ⟨_, lru1, hcc, hread,
    miss_then_hit_holds_word initialState _ 4 lru1 Reachable.init hcc hread⟩

/-- C14, evaluated on the code. On the reads `4, 12` from the initial state: the read of
`4` installs its word in block `8` under tag `0`; the valid address `12` has the same set
and tag, so `check_cache` classifies its read as a hit on block `8`, the only block of the
set with that tag; the byte of that block at the block offset `12` is zero, while the
memory byte at address `12` is `12`. -/
theorem hit_on_word_not_installed :
    ∃ s1 lru' blk, read_word 4 initialState = Except.ok s1
      ∧ validate_address 12 = Except.ok ()
      ∧ check_cache 12 s1.cache s1.lru = Except.ok (WORD_HIT, lru')
      ∧ s1.cache.blocks[8]? = some blk ∧ blk.tag = (calculateTag s1.cache 12 : Int)
      ∧ s1.cache.blocks[9]? = some newBlock
      ∧ newBlock.tag ≠ (calculateTag s1.cache 12 : Int)
      ∧ blk.byte_array[calculateBlockOffset s1.cache 12]? = some 0
      ∧ s1.memory.getD 12 0 = 12 := by
  obtain ⟨_, l1, _, hread1⟩ := read_word_initial 4 (by norm_num) (by norm_num) (by norm_num)
  norm_num at hread1
  generalize hs1 : withBlock initialState 8 (installWord newBlock 0 4 4 initialize_memory) l1
    = s1 at hread1
  have hreach1 : Reachable s1 := Reachable.read _ _ _ Reachable.init hread1
  obtain ⟨hg, hmem, _, _⟩ := reachable_invariant s1 hreach1
  have htag : calculateTag s1.cache 12 = 0 := by
    rw [calculateTag_eq _ _ hg]
    norm_num
  have hoff : calculateBlockOffset s1.cache 12 = 12 := by
    rw [calculateBlockOffset_eq _ _ hg]
  have hb8 : s1.cache.blocks[8]? = some (installWord newBlock 0 4 4 initialize_memory) := by
    rw [← hs1]
    exact withBlock_blocks_self _ _ _ _ (by rw [initialState_blocks_length]; norm_num)
  have hb9 : s1.cache.blocks[9]? = some newBlock := by
    rw [← hs1, withBlock_blocks_ne _ _ _ _ _ (by norm_num)]
    exact initialState_blocks 9 (by norm_num)
  obtain ⟨lru', hhit⟩ := check_cache_hit s1 12 (installWord newBlock 0 4 4 initialize_memory)
    newBlock hreach1 hb8 hb9 (Or.inl (by rw [htag, installWord_tag]; rfl))
  obtain ⟨_, hbytes⟩ := installWord_bytes newBlock 0 4 4 initialize_memory
    (by rw [newBlock_length]; norm_num)
  refine ⟨s1, lru', _, hread1, by rfl, hhit, hb8, by rw [htag, installWord_tag]; rfl, hb9,
    by rw [htag]; decide, ?_, ?_⟩
  · rw [hoff, hbytes 12 (by norm_num)]
    simp only [newBlock, List.getElem?_replicate]
    rfl
  · rw [hmem, initialize_memory_getD _ (by norm_num)]
    simp [initialByte, toChar]

/-! ## Write-through: `write_word` from the initial state -/

end CacheSim
